import Mathlib

/-!
Verification of the QoS-routing core (graph + metric model, four metaheuristic
optimizers, comparison harness) against its specification.

The Python sources are shallowly embedded.  Numeric quantities (Python floats)
are modelled over an arbitrary `LinearOrderedField K` (instantiated at `ℚ` for
executable witnesses and at `ℝ` where the spec speaks about real arithmetic);
`math.log` is a parameter `rlog` of the metric engine, instantiated at
`Real.log` where the claim needs its properties.  Randomness
(`random.choice`, `random.random`, `random.choices`, `random.randint`) is
modelled by an oracle stream of naturals: each random call consumes one
element of the stream; universally quantified theorems therefore cover every
outcome an actual run can produce, and counterexamples pick one concrete
realizable stream.
-/

/-- Attributes stored on an (undirected) edge.  Canonical keys
(`link_delay_ms`, `capacity_mbps`, `link_reliability`) are accessed with
`dict[...]` by the metric engine and are modelled as total fields; the legacy
aliases (`bandwidth_mbps`, `bandwidth`, `link_delay`, `pheromone`) are only
accessed with `dict.get(...)` and are modelled as optional fields. -/
structure EdgeAttr (K : Type) where
  link_delay_ms : K
  capacity_mbps : K
  link_reliability : K
  bandwidth_mbps : Option K := none
  bandwidth : Option K := none
  link_delay : Option K := none
  pheromone : Option K := none
deriving DecidableEq

/-- Attributes stored on a node (canonical keys only; the `proc_delay` alias
is never read when `processing_delay_ms` is present, as it is here). -/
structure NodeAttr (K : Type) where
  processing_delay_ms : K
  node_reliability : K
deriving DecidableEq

/-- A NetworkX `nx.Graph`: a node list, an undirected edge list and attribute
maps.  `eAttr` is queried in both orders, mirroring `G[u][v] = G[v][u]`;
well-formed graphs (`GraphWF`) have a symmetric `eAttr`. -/
structure NetGraph (K : Type) where
  nodes : List Nat
  edgeList : List (Nat × Nat)
  nAttr : Nat → NodeAttr K
  eAttr : Nat → Nat → EdgeAttr K

/-- `G.has_edge(u, v)` on the undirected edge list. -/
def hasEdge {K : Type} (g : NetGraph K) (u v : Nat) : Bool :=
  g.edgeList.contains (u, v) || g.edgeList.contains (v, u)

/-- `G.neighbors(u)`: all endpoints opposite `u` on edges incident to `u`
(one fixed enumeration order; the stochastic optimizers are quantified over
oracles, so the order never matters for the claims). -/
def neighborsOf {K : Type} (g : NetGraph K) (u : Nat) : List Nat :=
  g.edgeList.flatMap (fun e =>
    if e.1 = u then [e.2] else if e.2 = u then [e.1] else [])

/-- Well-formedness facts every NetworkX graph satisfies by construction:
nodes are listed once, edge endpoints are nodes, and the attribute map is
direction-independent. -/
structure GraphWF {K : Type} (g : NetGraph K) : Prop where
  nodup : g.nodes.Nodup
  ends_mem : ∀ e ∈ g.edgeList, e.1 ∈ g.nodes ∧ e.2 ∈ g.nodes
  symm : ∀ u v, g.eAttr u v = g.eAttr v u

section MetricEngine

variable {K : Type} [LinearOrderedField K]

/-- The weight triple of `metric.Weights`. -/
structure Weights (K : Type) where
  w_delay : K
  w_reliability : K
  w_resource : K
deriving DecidableEq

/-- `Weights.normalized`: divide by the component sum, raising `ValueError`
(modelled as `Except.error ()`) when the sum is `≤ 0`. -/
def Weights.normalizedE (w : Weights K) : Except Unit (Weights K) :=
  let total := w.w_delay + w.w_reliability + w.w_resource
  if total ≤ 0 then .error ()
  else .ok ⟨w.w_delay / total, w.w_reliability / total, w.w_resource / total⟩

/-- The derived `PathMetrics` value.  `bottleneck_capacity_mbps` starts at
`float("inf")`, modelled as `⊤ : WithTop K`. -/
structure PathMetrics (K : Type) where
  total_delay_ms : K
  reliability_cost : K
  resource_cost : K
  total_reliability : K
  bottleneck_capacity_mbps : WithTop K
  feasible_for_demand : Bool
deriving DecidableEq

/-- The engine's reliability floor `eps = 1e-12`. -/
def engineEps (K : Type) [LinearOrderedField K] : K := 1 / 1000000000000

/-- The engine's `reference_bandwidth_mbps = 1000.0`. -/
def refBW (K : Type) [LinearOrderedField K] : K := 1000

/-- `MetricsEngine._edge`: the attribute dict of `(u, v)`, raising
`ValueError` when the edge is absent. -/
def engineEdge (g : NetGraph K) (u v : Nat) : Except Unit (EdgeAttr K) :=
  if hasEdge g u v then .ok (g.eAttr u v) else .error ()

/-- The consecutive pairs `zip(path[:-1], path[1:])`. -/
def consecPairs (path : List Nat) : List (Nat × Nat) :=
  path.zip path.tail

/-- One `for u, v in zip(path[:-1], path[1:])` accumulation loop of
`MetricsEngine.compute`: each step fetches the edge dict through `_edge`
(raising on a missing edge) and folds its attributes into the accumulator. -/
def edgeFoldM {β : Type} (g : NetGraph K) (f : β → EdgeAttr K → β) (init : β)
    (l : List (Nat × Nat)) : Except Unit β :=
  l.foldlM (fun acc uv => do
    let e ← engineEdge g uv.1 uv.2
    pure (f acc e)) init

/-- The `processing_delay_ms` sum over `path[1:-1]` (interior nodes). -/
def processingSumF (g : NetGraph K) (path : List Nat) : K :=
  (path.drop 1).dropLast.foldl
    (fun acc n => acc + (g.nAttr n).processing_delay_ms) (0 : K)

/-- The node-reliability loop: accumulates `(reliability_cost,
total_reliability)` over all nodes of the path, clamping at `eps`. -/
def nodeRelF (g : NetGraph K) (rlog : K → K) (path : List Nat) : K × K :=
  path.foldl
    (fun acc n =>
      let r := max (g.nAttr n).node_reliability (engineEps K)
      (acc.1 + -rlog r, acc.2 * r)) ((0 : K), (1 : K))

/-- `MetricsEngine.compute` (engine constructed with the default
`reference_bandwidth_mbps` and `eps`, as everywhere in the repository).
`rlog` models `math.log`.  Errors are the two `ValueError`s of the source:
a path with fewer than two nodes, and a missing edge inside `_edge`. -/
def engineCompute (g : NetGraph K) (rlog : K → K) (path : List Nat)
    (demand : Option K) : Except Unit (PathMetrics K) := do
  if path.length < 2 then throw ()
  let linkDelaySum ← edgeFoldM g (fun acc e => acc + e.link_delay_ms) (0 : K)
    (consecPairs path)
  let totalDelay := linkDelaySum + processingSumF g path
  let linkRel ← edgeFoldM g
    (fun acc e =>
      let r := max e.link_reliability (engineEps K)
      (acc.1 + -rlog r, acc.2 * r)) (nodeRelF g rlog path) (consecPairs path)
  let res ← edgeFoldM g
    (fun acc e =>
      let cap := max e.capacity_mbps (engineEps K)
      (min acc.1 (cap : WithTop K), acc.2 + refBW K / cap))
    ((⊤ : WithTop K), (0 : K)) (consecPairs path)
  let feasible := match demand with
    | none => true
    | some b => decide ((b : WithTop K) ≤ res.1)
  pure { total_delay_ms := totalDelay
         reliability_cost := linkRel.1
         resource_cost := res.2
         total_reliability := linkRel.2
         bottleneck_capacity_mbps := res.1
         feasible_for_demand := feasible }

/-- Closed form of the link-delay loop (all edges present). -/
def linkDelaySumF (g : NetGraph K) (path : List Nat) : K :=
  (consecPairs path).foldl
    (fun acc uv => acc + (g.eAttr uv.1 uv.2).link_delay_ms) 0

/-- Closed form of the link-reliability loop, continuing from the node
accumulator (all edges present). -/
def linkRelFoldF (g : NetGraph K) (rlog : K → K) (path : List Nat) : K × K :=
  (consecPairs path).foldl
    (fun acc uv =>
      let r := max (g.eAttr uv.1 uv.2).link_reliability (engineEps K)
      (acc.1 + -rlog r, acc.2 * r)) (nodeRelF g rlog path)

/-- Closed form of the bottleneck / resource loop (all edges present). -/
def resFoldF (g : NetGraph K) (path : List Nat) : WithTop K × K :=
  (consecPairs path).foldl
    (fun acc uv =>
      let cap := max (g.eAttr uv.1 uv.2).capacity_mbps (engineEps K)
      (min acc.1 (cap : WithTop K), acc.2 + refBW K / cap))
    ((⊤ : WithTop K), (0 : K))

/-- The `PathMetrics` record `compute` returns on a valid path. -/
def engineMetricsF (g : NetGraph K) (rlog : K → K) (path : List Nat)
    (demand : Option K) : PathMetrics K :=
  { total_delay_ms := linkDelaySumF g path + processingSumF g path
    reliability_cost := (linkRelFoldF g rlog path).1
    resource_cost := (resFoldF g path).2
    total_reliability := (linkRelFoldF g rlog path).2
    bottleneck_capacity_mbps := (resFoldF g path).1
    feasible_for_demand := match demand with
      | none => true
      | some b => decide ((b : WithTop K) ≤ (resFoldF g path).1) }

/-- `MetricsEngine.compute` as called with a possibly-`None` path
(`if path is None or len(path) < 2: raise ValueError`). -/
def engineComputeOpt (g : NetGraph K) (rlog : K → K) (path : Option (List Nat))
    (demand : Option K) : Except Unit (PathMetrics K) :=
  match path with
  | none => .error ()
  | some p => engineCompute g rlog p demand

/-- `MetricsEngine.weighted_sum` with explicit `infeasible_penalty`
(default `1e9`). -/
def weightedSum (m : PathMetrics K) (w : Weights K) (penalty : K) :
    Except Unit K := do
  let wn ← w.normalizedE
  let score := wn.w_delay * m.total_delay_ms
    + wn.w_reliability * m.reliability_cost
    + wn.w_resource * m.resource_cost
  pure (if m.feasible_for_demand then score else score + penalty)

/-- The default `infeasible_penalty = 1e9`. -/
def defaultPenalty (K : Type) [LinearOrderedField K] : K := 1000000000

end MetricEngine

section PathEnumeration

variable {K : Type} [LinearOrderedField K]

/-- `List.Chain'` of graph edges: every consecutive pair of the list is an
edge of `g`. -/
def EdgeChain (g : NetGraph K) (p : List Nat) : Prop :=
  List.Chain' (fun a b => hasEdge g a b = true) p

instance (g : NetGraph K) (p : List Nat) : Decidable (EdgeChain g p) := by
  unfold EdgeChain; infer_instance

/-- A simple path from `s` to `t` in `g`: non-empty, endpoints `s` and `t`,
consecutive pairs are edges, no repeated node (the spec's path invariant). -/
def IsSimplePath (g : NetGraph K) (s t : Nat) (p : List Nat) : Prop :=
  p.head? = some s ∧ p.getLast? = some t ∧ EdgeChain g p ∧ p.Nodup

instance (g : NetGraph K) (s t : Nat) (p : List Nat) :
    Decidable (IsSimplePath g s t p) := by
  unfold IsSimplePath; infer_instance

/-- Exhaustive enumeration of the simple paths from `c` to `t` avoiding
`visited`, by depth-first search with fuel (a simple path visits each node at
most once, so `|nodes| + 1` fuel is always enough). -/
def simplePathsAux (g : NetGraph K) :
    Nat → List Nat → Nat → Nat → List (List Nat)
  | 0, _, _, _ => []
  | fuel + 1, visited, c, t =>
    if c = t then [[t]]
    else
      ((neighborsOf g c).filter (fun n => !(c :: visited).contains n)).flatMap
        (fun n => (simplePathsAux g fuel (c :: visited) n t).map
          (fun p => c :: p))

/-- All simple paths from `s` to `t` in `g`. -/
def simplePaths (g : NetGraph K) (s t : Nat) : List (List Nat) :=
  simplePathsAux g (g.nodes.length + 1) [] s t

/-- First element minimizing `f` (Python `min`-style selection used to model
the shortest-path contract: ties are broken by enumeration order, which no
claim depends on). -/
def minBySum (f : List Nat → K) : List (List Nat) → Option (List Nat)
  | [] => none
  | p :: rest => some (rest.foldl (fun best q => if f q < f best then q else best) p)

/-- Contract model of `nx.shortest_path(g, s, t, weight := wf)`: a path of
minimum total weight among the simple paths from `s` to `t`, `none` exactly
when `s` and `t` are disconnected (`NetworkXNoPath`).  Dijkstra returns a
minimum-weight simple path whenever the weight function is non-negative,
which holds at every use below. -/
def nxShortestPathBy (wf : Nat → Nat → K) (g : NetGraph K) (s t : Nat) :
    Option (List Nat) :=
  minBySum (fun p => (consecPairs p).foldl (fun a uv => a + wf uv.1 uv.2) 0)
    (simplePaths g s t)

end PathEnumeration

section Topology

variable {K : Type} [LinearOrderedField K]

/-- The bandwidth-floor literal `1e-9` of `topology.py`. -/
def topoBWFloor (K : Type) [LinearOrderedField K] : K := 1 / 1000000000

/-- The bandwidth read of `topology.py`:
`ed.get("bandwidth_mbps", ed.get("bandwidth", 1000.0))`. -/
def topoBW (ed : EdgeAttr K) : K := ed.bandwidth_mbps.getD (ed.bandwidth.getD 1000)

/-- `topology.edge_weight(u, v, ed)` under already-normalized weights: the
per-hop contribution of the scalarized cost at head node `v` (`link_delay_ms`
and `link_reliability` are canonical fields, so the `.get` fallbacks to
`link_delay` / `1.0` never fire). -/
def topoEdgeWeight (g : NetGraph K) (rlog : K → K) (source target : Nat)
    (wd wr wres : K) (u v : Nat) : K :=
  let ed := g.eAttr u v
  let delayCost := ed.link_delay_ms
    + (if v = source ∨ v = target then 0 else (g.nAttr v).processing_delay_ms)
  let relCost := -rlog (max ed.link_reliability (engineEps K))
    + -rlog (max (g.nAttr v).node_reliability (engineEps K))
  let resourceCost := 1000 / max (topoBW ed) (topoBWFloor K)
  wd * delayCost + wr * relCost + wres * resourceCost

/-- Total Dijkstra weight of a path: the sum of `edge_weight` over the
traversal direction. -/
def pathTopoWeight (g : NetGraph K) (rlog : K → K) (source target : Nat)
    (wd wr wres : K) (p : List Nat) : K :=
  (consecPairs p).foldl
    (fun acc uv => acc + topoEdgeWeight g rlog source target wd wr wres uv.1 uv.2) 0

/-- The recomputed `total_delay` of `compute_path_weighted` (link delays plus
processing delays of nodes other than source and target). -/
def topoTotalDelay (g : NetGraph K) (source target : Nat) (p : List Nat) : K :=
  (consecPairs p).foldl (fun a uv => a + (g.eAttr uv.1 uv.2).link_delay_ms) 0
    + p.foldl (fun a k =>
        a + (if k ≠ source ∧ k ≠ target then (g.nAttr k).processing_delay_ms else 0)) 0

/-- The recomputed `reliability_cost` (edges plus all nodes, clamped at
`1e-12`). -/
def topoRelCost (g : NetGraph K) (rlog : K → K) (p : List Nat) : K :=
  (consecPairs p).foldl
    (fun a uv => a + -rlog (max (g.eAttr uv.1 uv.2).link_reliability (engineEps K))) 0
    + p.foldl (fun a k => a + -rlog (max (g.nAttr k).node_reliability (engineEps K))) 0

/-- The recomputed `resource_cost`: `Σ 1000 / max(bw, 1e-9)`. -/
def topoResCost (g : NetGraph K) (p : List Nat) : K :=
  (consecPairs p).foldl
    (fun a uv => a + 1000 / max (topoBW (g.eAttr uv.1 uv.2)) (topoBWFloor K)) 0

/-- The reported `total_cost` of `compute_path_weighted` for a found path. -/
def topoTotalCost (g : NetGraph K) (rlog : K → K) (source target : Nat)
    (wd wr wres : K) (p : List Nat) : K :=
  wd * topoTotalDelay g source target p + wr * topoRelCost g rlog p
    + wres * topoResCost g p

/-- `topology.compute_path_weighted` with `normalize = True`, reduced to the
data the claims consume: the found path and its reported `total_cost`.
Every early-return branch (equal endpoints, weight sum `≤ 1e-12`, endpoint
missing from the graph, no path) yields an empty-path `RoutingResult` without
metrics, modelled as `none`; the `nx.shortest_path(..., method="dijkstra")`
call is modelled by its contract `nxShortestPathBy`. -/
def computePathWeighted (g : NetGraph K) (rlog : K → K) (source target : Nat)
    (wDelay wRel wRes : K) : Option (List Nat × K) :=
  if source = target then none
  else
    let total := wDelay + wRel + wRes
    if total ≤ engineEps K then none
    else
      let wd := wDelay / total
      let wr := wRel / total
      let wres := wRes / total
      if source ∈ g.nodes ∧ target ∈ g.nodes then
        match nxShortestPathBy
            (topoEdgeWeight g rlog source target wd wr wres) g source target with
        | none => none
        | some p => some (p, topoTotalCost g rlog source target wd wr wres p)
      else none

end Topology

section RandomOracle

/-- Oracle for the Python RNG: an infinite stream of naturals with a read
position.  Each `random.*` call consumes one element; an index among `n`
candidates is the element mod `n`, a Boolean comparison outcome is the
element's parity.  Quantifying over all oracles covers every outcome a real
run can produce. -/
structure RandO where
  stream : Nat → Nat
  pos : Nat

/-- Consume one oracle element. -/
def RandO.next (r : RandO) : Nat × RandO :=
  (r.stream r.pos, { r with pos := r.pos + 1 })

/-- A uniform choice among `n` candidates (`random.choice`,
`random.randint`, and the index drawn by `random.choices`). -/
def randIndex (r : RandO) (n : Nat) : Nat × RandO :=
  let (v, r1) := r.next
  (v % n, r1)

/-- The outcome of a probabilistic comparison such as
`random.random() < math.exp(-delta / max(T, 1e-9))`. -/
def coinFlip (r : RandO) : Bool × RandO :=
  let (v, r1) := r.next
  (v % 2 == 0, r1)

end RandomOracle

section SimulatedAnnealing

variable {K : Type} [LinearOrderedField K]

/-- `SA.path_is_feasible`: every edge's `bandwidth` attribute (falling back
to `bandwidth_mbps`, then `0`) meets the demand; `True` when demand is
`None`. -/
def pathIsFeasible (g : NetGraph K) (path : List Nat) (demand : Option K) : Bool :=
  match demand with
  | none => true
  | some d => (consecPairs path).all (fun uv =>
      let ed := g.eAttr uv.1 uv.2
      decide (d ≤ ed.bandwidth.getD (ed.bandwidth_mbps.getD 0)))

/-- `SA.build_feasible_subgraph`: keep all nodes, keep exactly the edges
whose `bandwidth` attribute (falling back to `bandwidth_mbps`, then `0`)
meets the demand, attributes unchanged. -/
def buildFeasibleSubgraph (g : NetGraph K) (demand : Option K) : NetGraph K :=
  match demand with
  | none => g
  | some d =>
    { g with edgeList := g.edgeList.filter (fun uv =>
        let ed := g.eAttr uv.1 uv.2
        decide (d ≤ ed.bandwidth.getD (ed.bandwidth_mbps.getD 0))) }

/-- The edge weight of `nx.shortest_path(Gf, ..., weight="link_delay")`: a
string weight reads `ed.get("link_delay", 1)`. -/
def linkDelayW (g : NetGraph K) (u v : Nat) : K :=
  (g.eAttr u v).link_delay.getD 1

/-- The SA temperature floor `1e-6`. -/
def saTmin (K : Type) [LinearOrderedField K] : K := 1 / 1000000

/-- The iteration loop of `simulated_annealing`, one fuel unit per
iteration of `for _ in range(max_iter)`.  On the `continue` branches the
temperature is cooled but the `T < 1e-6` break test is skipped, exactly as
in the source.  `random.random() < exp(...)` is only evaluated (and only
consumes the oracle) when `delta < 0` is false, mirroring Python's
short-circuit `or`. -/
def saLoop (g : NetGraph K) (rlog : K → K) (gf : NetGraph K) (target : Nat)
    (weights : Weights K) (demand : Option K) (alpha : K) :
    Nat → List Nat → K → List Nat → K → PathMetrics K → K → RandO →
    Except Unit (List Nat × K × PathMetrics K)
  | 0, _, _, best, bestScore, bestM, _, _ => .ok (best, bestScore, bestM)
  | fuel + 1, current, curScore, best, bestScore, bestM, t, r =>
    if current.length ≤ 2 then .ok (best, bestScore, bestM)
    else
      let (i0, r1) := randIndex r (current.length - 2)
      let i := 1 + i0
      let pivot := current.getD i 0
      match nxShortestPathBy (linkDelayW gf) gf pivot target with
      | none =>
        saLoop g rlog gf target weights demand alpha fuel current curScore
          best bestScore bestM (t * alpha) r1
      | some tail =>
        let candidate := current.take i ++ tail
        if pathIsFeasible g candidate demand = false then
          saLoop g rlog gf target weights demand alpha fuel current curScore
            best bestScore bestM (t * alpha) r1
        else do
          let candM ← engineCompute g rlog candidate demand
          let candScore ← weightedSum candM weights (defaultPenalty K)
          let delta := candScore - curScore
          let (accept, r2) :=
            if delta < 0 then (true, r1)
            else coinFlip r1
          let (current1, curScore1) :=
            if accept then (candidate, candScore) else (current, curScore)
          let (best1, bestScore1, bestM1) :=
            if accept ∧ candScore < bestScore then (candidate, candScore, candM)
            else (best, bestScore, bestM)
          let t1 := t * alpha
          if t1 < saTmin K then .ok (best1, bestScore1, bestM1)
          else (saLoop g rlog gf target weights demand alpha fuel current1
            curScore1 best1 bestScore1 bestM1 t1 r2)

/-- `SA.simulated_annealing`.  Result `.ok none` is the `NoPath` triple
`(None, float("inf"), None)`; `.ok (some (best, score, metrics))` is a found
route; `.error ()` is an uncaught `ValueError` escaping from the metric
engine (which the source does not catch). -/
def simulatedAnnealing (g : NetGraph K) (rlog : K → K) (source target : Nat)
    (weights : Weights K) (demand : Option K) (t0 alpha : K) (maxIter : Nat)
    (r : RandO) : Except Unit (Option (List Nat × K × PathMetrics K)) :=
  let gf := buildFeasibleSubgraph g demand
  match nxShortestPathBy (linkDelayW gf) gf source target with
  | none => .ok none
  | some current => do
    let curM ← engineCompute g rlog current demand
    let curScore ← weightedSum curM weights (defaultPenalty K)
    let (best, bestScore, bestM) ←
      saLoop g rlog gf target weights demand alpha maxIter current curScore
        current curScore curM t0 r
    if pathIsFeasible g best demand = false then pure none
    else pure (some (best, bestScore, bestM))

end SimulatedAnnealing

/-- SPEC-WORDS definition (for comparison only): the working graph the
spec describes, keeping exactly the edges with `capacity_mbps ≥ B`.  The
source filter (`buildFeasibleSubgraph`) reads the `bandwidth` attribute
instead. -/
def buildFeasibleSubgraphSpec {K : Type} [LinearOrderedField K]
    (g : NetGraph K) (demand : Option K) : NetGraph K :=
  match demand with
  | none => g
  | some d =>
    { g with edgeList := g.edgeList.filter (fun uv =>
        decide (d ≤ (g.eAttr uv.1 uv.2).capacity_mbps)) }

/-- The one-edge graph of the SA counterexample: `capacity_mbps = 100` but
`bandwidth = 1`, so a demand between the two separates the code's filter
from the spec's. -/
def saCxGraph : NetGraph ℚ :=
  { nodes := [0, 1]
    edgeList := [(0, 1)]
    nAttr := fun _ => ⟨0, 1⟩
    eAttr := fun _ _ =>
      { link_delay_ms := 1
        capacity_mbps := 100
        link_reliability := 1
        bandwidth := some 1 } }

/-- The one-edge graph of the baseline-optimality witness: canonical
attributes with `bandwidth_mbps = capacity_mbps`, all reliabilities `1`. -/
def c1Graph : NetGraph ℚ :=
  { nodes := [0, 1]
    edgeList := [(0, 1)]
    nAttr := fun _ => ⟨1, 1⟩
    eAttr := fun _ _ =>
      { link_delay_ms := 2
        capacity_mbps := 1000
        link_reliability := 1
        bandwidth_mbps := some 1000 } }

section AntColony

variable {K : Type} [LinearOrderedField K]

/-- The feasible unvisited neighbors of `current` in `ant_walk`:
`n not in visited and G[current][n].get("capacity_mbps", 0) >= demand_bw`. -/
def antFeasibleNeighbors (g : NetGraph K) (demandBw : K) (current : Nat)
    (visited : List Nat) : List Nat :=
  (neighborsOf g current).filter (fun n =>
    !visited.contains n && decide (demandBw ≤ (g.eAttr current n).capacity_mbps))

/-- The selection weight `ant_walk` computes for candidate `n`:
`tau = min(G[current][n].get("pheromone", 0.1), 1000) ** alpha`,
`eta = heuristic_fn(G, current, n) ** beta`, floored via
`max(tau * eta, 1e-6)`.  `kpow` models the float `**` operator. -/
def antEdgeWeight (g : NetGraph K) (heuristic : NetGraph K → Nat → Nat → K)
    (alpha beta : K) (kpow : K → K → K) (current n : Nat) : K :=
  let rawPheromone := (g.eAttr current n).pheromone.getD (1 / 10)
  let tau := kpow (min rawPheromone 1000) alpha
  let eta := kpow (heuristic g current n) beta
  max (tau * eta) (1 / 1000000)

/-- Stated from the spec for comparison with `antEdgeWeight`:
`w = clamp(tau(current,n), <= tau_max)^alpha * eta(current,n)^beta` floored at
`1e-6`, with `tau_max` the default pheromone upper bound `10_000` named by the
claim. -/
def antEdgeWeightSpec (g : NetGraph K) (heuristic : NetGraph K → Nat → Nat → K)
    (alpha beta : K) (kpow : K → K → K) (current n : Nat) : K :=
  let rawPheromone := (g.eAttr current n).pheromone.getD (1 / 10)
  let tau := kpow (min rawPheromone 10000) alpha
  let eta := kpow (heuristic g current n) beta
  max (tau * eta) (1 / 1000000)

/-- The weight list `ant_walk` hands to `random.choices`. -/
def antWalkWeights (g : NetGraph K) (heuristic : NetGraph K → Nat → Nat → K)
    (alpha beta : K) (kpow : K → K → K) (demandBw : K) (current : Nat)
    (visited : List Nat) : List K :=
  (antFeasibleNeighbors g demandBw current visited).map
    (antEdgeWeight g heuristic alpha beta kpow current)

/-- The walk loop of `ant_walk`.  All selection weights are `≥ 1e-6 > 0`, so
`random.choices` can return every index; the model draws the index from the
oracle (the weights fix the distribution, never the support), and the
`except ValueError` fallback to `random.choice` is unreachable because the
total weight is positive. -/
def antWalkAux (g : NetGraph K) (endNode : Nat) (demandBw : K)
    (heuristic : NetGraph K → Nat → Nat → K) (alpha beta : K)
    (kpow : K → K → K) :
    Nat → Nat → List Nat → List Nat → RandO → Option (List Nat) × RandO
  | 0, _, _, _, r => (none, r)
  | fuel + 1, current, path, visited, r =>
    if current = endNode then (some path, r)
    else if g.nodes.length < path.length then (none, r)
    else
      let feas := antFeasibleNeighbors g demandBw current visited
      if feas.isEmpty then (none, r)
      else
        let _ws := antWalkWeights g heuristic alpha beta kpow demandBw current visited
        let (idx, r1) := randIndex r feas.length
        let next := feas.getD idx 0
        antWalkAux g endNode demandBw heuristic alpha beta kpow fuel next
          (path ++ [next]) (next :: visited) r1

/-- `aco_core.ant_walk`.  The loop appends one unvisited node per step and
aborts once the path outgrows the node count, so `|nodes| + 2` fuel units are
never exhausted. -/
def antWalk (g : NetGraph K) (start endNode : Nat) (demandBw : K)
    (heuristic : NetGraph K → Nat → Nat → K) (alpha beta : K)
    (kpow : K → K → K) (r : RandO) : Option (List Nat) × RandO :=
  antWalkAux g endNode demandBw heuristic alpha beta kpow
    (g.nodes.length + 2) start [start] [start] r

/-- In-place write of the `pheromone` attribute of the undirected edge
`(u, v)` (`G[u][v]["pheromone"] = val` updates the dict shared by both
directions). -/
def setPheromone (g : NetGraph K) (u v : Nat) (val : K) : NetGraph K :=
  { g with eAttr := fun a b =>
      if (a = u ∧ b = v) ∨ (a = v ∧ b = u) then
        { g.eAttr a b with pheromone := some val }
      else g.eAttr a b }

/-- `aco_core.update_pheromone`.  The `score == float("inf")` guard of the
source never fires for engine-produced scores (they are finite), so only the
empty-path and zero-score guards are modelled. -/
def updatePheromone (g : NetGraph K) (path : List Nat) (score : K) (q : K) :
    NetGraph K :=
  if path.isEmpty || decide (score = 0) then g
  else
    let addition := q / max score (1 / 10)
    (consecPairs path).foldl
      (fun gr uv =>
        setPheromone gr uv.1 uv.2
          (min ((gr.eAttr uv.1 uv.2).pheromone.getD (1 / 10) + addition) 10000))
      g

/-- `aco_core.evaporate_pheromone`: `τ ← max(τ * (1 - rho), 0.01)` on every
edge. -/
def evaporatePheromone (g : NetGraph K) (rho : K) : NetGraph K :=
  g.edgeList.foldl
    (fun gr uv =>
      setPheromone gr uv.1 uv.2
        (max ((gr.eAttr uv.1 uv.2).pheromone.getD (1 / 10) * (1 - rho)) (1 / 100)))
    g

end AntColony

section QLearning

variable {K : Type} [LinearOrderedField K]

/-- `QLearningAgent.get_valid_neighbors`: neighbors whose
`get('bandwidth', get('capacity_mbps', get('bant_genisligi', 0)))` meets
`min_bandwidth` (the canonical `capacity_mbps` is always present, so the
last fallback never fires). -/
def getValidNeighbors (g : NetGraph K) (minBandwidth : K) (state : Nat) :
    List Nat :=
  (neighborsOf g state).filter (fun n =>
    let ed := g.eAttr state n
    decide (minBandwidth ≤ ed.bandwidth.getD ed.capacity_mbps))

/-- Python `max(l, key := f)`: the first element attaining the maximum key. -/
def argmaxKey (f : Nat → K) : List Nat → Option Nat
  | [] => none
  | x :: xs => some (xs.foldl (fun best n => if f best < f n then n else best) x)

/-- The extraction loop of `QLearningAgent.get_best_path`, one fuel unit per
step; the source aborts once `len(path) > len(G.nodes)`, so `|nodes| + 2`
fuel units are never exhausted.  `qtable` is the learned `get_q` (defaulting
absent entries to `0.0` is the caller's concern: any total function covers
every trained table). -/
def qlGetBestPathAux (g : NetGraph K) (minBandwidth : K)
    (qtable : Nat → Nat → K) (target : Nat) :
    Nat → Nat → List Nat → List Nat → Option (List Nat)
  | 0, _, _, _ => none
  | fuel + 1, state, path, visited =>
    if state = target then some path
    else
      let valid := (getValidNeighbors g minBandwidth state).filter
        (fun n => !visited.contains n)
      match argmaxKey (qtable state) valid with
      | none => none
      | some bestNext =>
        let path1 := path ++ [bestNext]
        if g.nodes.length < path1.length then none
        else qlGetBestPathAux g minBandwidth qtable target fuel bestNext path1
          (bestNext :: visited)

/-- `QLearningAgent.get_best_path`. -/
def qlGetBestPath (g : NetGraph K) (minBandwidth : K) (qtable : Nat → Nat → K)
    (source target : Nat) : Option (List Nat) :=
  qlGetBestPathAux g minBandwidth qtable target (g.nodes.length + 2) source
    [source] [source]

end QLearning

section GeneticAlgorithm

variable {K : Type} [LinearOrderedField K]

/-- The walk loop of `genetic_algorithm.generate_random_path`: a uniform
random step to an unvisited neighbor, `None` on a dead end.  The path gains
one distinct in-graph node per step, so `|nodes| + 2` fuel units are never
exhausted. -/
def generateRandomPathAux (g : NetGraph K) (dst : Nat) :
    Nat → Nat → List Nat → RandO → Option (List Nat) × RandO
  | 0, _, _, r => (none, r)
  | fuel + 1, current, path, r =>
    if current = dst then (some path, r)
    else if !g.nodes.contains current then (none, r)
    else
      let possible := (neighborsOf g current).filter (fun n => !path.contains n)
      if possible.isEmpty then (none, r)
      else
        let (i, r1) := randIndex r possible.length
        let next := possible.getD i 0
        generateRandomPathAux g dst fuel next (path ++ [next]) r1

/-- `genetic_algorithm.generate_random_path`. -/
def generateRandomPath (g : NetGraph K) (src dst : Nat) (r : RandO) :
    Option (List Nat) × RandO :=
  generateRandomPathAux g dst (g.nodes.length + 2) src [src] r

/-- The retry loop of `create_initial_population`: one fuel unit per loop
iteration; Python performs at most `pop_size * 10 + 1` iterations (the
attempt counter breaks the loop after exceeding `max_attempts`). -/
def createPopAux (g : NetGraph K) (src dst : Nat) (popSize : Nat) :
    Nat → List (List Nat) → RandO → List (List Nat) × RandO
  | 0, pop, r => (pop, r)
  | fuel + 1, pop, r =>
    if popSize ≤ pop.length then (pop, r)
    else
      let (p, r1) := generateRandomPath g src dst r
      let pop1 := match p with
        | some q => pop ++ [q]
        | none => pop
      createPopAux g src dst popSize fuel pop1 r1

/-- `genetic_algorithm.create_initial_population`. -/
def createInitialPopulation (g : NetGraph K) (src dst : Nat) (popSize : Nat)
    (r : RandO) : List (List Nat) × RandO :=
  createPopAux g src dst popSize (popSize * 10 + 1) [] r

/-- The cost `selection` attaches to an individual:
`engine.compute(path)` then `engine.weighted_sum(...)`, with `float("inf")`
(modelled `none`) when either raises the `ValueError` the source catches. -/
def gaCost (g : NetGraph K) (rlog : K → K) (weights : Weights K)
    (path : List Nat) : Option K :=
  match engineCompute g rlog path none with
  | .error _ => none
  | .ok m =>
    match weightedSum m weights (defaultPenalty K) with
    | .error _ => none
    | .ok c => some c

/-- Strict comparison of costs with `none` as `float("inf")`. -/
def costLT : Option K → Option K → Bool
  | some x, some y => decide (x < y)
  | some _, none => true
  | none, _ => false

/-- Stable insertion of `x` into a sorted list: `x` goes before the first
element not strictly below it. -/
def insertSorted {α : Type} (lt : α → α → Bool) (x : α) : List α → List α
  | [] => [x]
  | y :: ys => if lt y x then y :: insertSorted lt x ys else x :: y :: ys

/-- Stable ascending sort (Python `list.sort` is stable; stable sorts by a
total preorder are extensionally unique, so this insertion sort computes
exactly the list Python produces). -/
def stableSortBy {α : Type} (lt : α → α → Bool) (l : List α) : List α :=
  l.foldr (insertSorted lt) []

/-- `genetic_algorithm.selection`: score everything, sort ascending by cost,
take the `num_parents` cheapest; `scored_paths[i]` raises `IndexError`
(uncaught) when the population is smaller than `num_parents`. -/
def gaSelection (g : NetGraph K) (rlog : K → K) (weights : Weights K)
    (population : List (List Nat)) (numParents : Nat) :
    Except Unit (List (List Nat)) :=
  let scored := population.map (fun p => (p, gaCost g rlog weights p))
  let sorted := stableSortBy (fun a b => costLT a.2 b.2) scored
  if sorted.length < numParents then .error ()
  else .ok ((sorted.take numParents).map (fun x => x.1))

/-- `genetic_algorithm.crossover`: common nodes of the parents (in `parent1`
order, duplicates kept), drop the first and last when more than two, cut at
a random common node using `.index` (first occurrence) and swap tails. -/
def gaCrossover (p1 p2 : List Nat) (r : RandO) :
    (List Nat × List Nat) × RandO :=
  let common := p1.filter (fun n => p2.contains n)
  let candidates := if 2 < common.length then (common.drop 1).dropLast else []
  if candidates.isEmpty then ((p1, p2), r)
  else
    let (i, r1) := randIndex r candidates.length
    let cutNode := candidates.getD i 0
    let idx1 := p1.indexOf cutNode
    let idx2 := p2.indexOf cutNode
    ((p1.take (idx1 + 1) ++ p2.drop (idx2 + 1),
      p2.take (idx2 + 1) ++ p1.drop (idx1 + 1)), r1)

/-- `genetic_algorithm.mutation`.  `random.random() > mutation_rate` always
consumes one draw; its outcome is forced for `mutation_rate < 0` (never
mutate: `random() ≥ 0`) and `mutation_rate ≥ 1` (always mutate:
`random() < 1`), and free otherwise (`random.random` can return any float in
`[0, 1)`, including `0.0`). -/
def gaMutation (g : NetGraph K) (path : List Nat) (dst : Nat)
    (mutationRate : K) (r : RandO) : List Nat × RandO :=
  let (coin, r1) := coinFlip r
  let mutate :=
    if mutationRate < 0 then false
    else if 1 ≤ mutationRate then true
    else coin
  if !mutate then (path, r1)
  else if path.length < 3 then (path, r1)
  else
    let (i0, r2) := randIndex r1 (path.length - 2)
    let cutIndex := 1 + i0
    let cutNode := path.getD cutIndex 0
    let partialPath := path.take (cutIndex + 1)
    match generateRandomPath g cutNode dst r2 with
    | (none, r3) => (path, r3)
    | (some tail, r3) => (partialPath.dropLast ++ tail, r3)

/-- The offspring loop of `run_genetic_algorithm` (part B): each iteration
appends at least one child, so `pop_size + 1` fuel units are never
exhausted. -/
def gaBreedAux (g : NetGraph K) (dst : Nat) (mutationRate : K)
    (popSize : Nat) (parents : List (List Nat)) :
    Nat → List (List Nat) → RandO → List (List Nat) × RandO
  | 0, newPop, r => (newPop, r)
  | fuel + 1, newPop, r =>
    if popSize ≤ newPop.length then (newPop, r)
    else
      let (i1, r1) := randIndex r parents.length
      let p1 := parents.getD i1 []
      let (i2, r2) := randIndex r1 parents.length
      let p2 := parents.getD i2 []
      let (cs, r3) := gaCrossover p1 p2 r2
      let (c1, r4) := gaMutation g cs.1 dst mutationRate r3
      let (c2, r5) := gaMutation g cs.2 dst mutationRate r4
      let newPop1 := newPop ++ [c1]
      let newPop2 := if newPop1.length < popSize then newPop1 ++ [c2] else newPop1
      gaBreedAux g dst mutationRate popSize parents fuel newPop2 r5

/-- The generation loop of `run_genetic_algorithm`.  `best_cost` starts at
`float("inf")`, modelled `none`.  The `except: continue` around the
best-tracking block skips the remainder of the generation (including
breeding) when the metric engine raises. -/
def gaGenLoop (g : NetGraph K) (rlog : K → K) (dst : Nat)
    (weights : Weights K) (popSize : Nat) (mutationRate : K) :
    Nat → List (List Nat) → Option (List Nat) → Option K → RandO →
    Except Unit (Option (List Nat) × Option K)
  | 0, _, best, bestCost, _ => .ok (best, bestCost)
  | gens + 1, population, best, bestCost, r => do
    let numParents := popSize / 2
    let parents ← gaSelection g rlog weights population numParents
    if parents.isEmpty then .ok (best, bestCost)
    else
      let currentBest := parents.headD []
      match gaCost g rlog weights currentBest with
      | none => (gaGenLoop g rlog dst weights popSize mutationRate gens
          population best bestCost r)
      | some currentCost =>
        let better := match bestCost with
          | none => true
          | some b => decide (currentCost < b)
        let (best1, bestCost1) :=
          if better then (some currentBest, some currentCost)
          else (best, bestCost)
        let (newPop, r1) := gaBreedAux g dst mutationRate popSize parents
          (popSize + 1) [] r
        (gaGenLoop g rlog dst weights popSize mutationRate gens newPop best1
          bestCost1 r1)

/-- `genetic_algorithm.run_genetic_algorithm` (config keys `pop_size`,
`generations`, `mutation_rate`, `weights`).  Returns `(best_path,
best_cost)`; `.error ()` is the uncaught `IndexError` from `selection` on an
undersized population. -/
def runGeneticAlgorithm (g : NetGraph K) (rlog : K → K) (src dst : Nat)
    (popSize generations : Nat) (mutationRate : K) (weights : Weights K)
    (r : RandO) : Except Unit (Option (List Nat) × Option K) :=
  let (population, r1) := createInitialPopulation g src dst popSize r
  gaGenLoop g rlog dst weights popSize mutationRate generations population
    none none r1

/-- The four-node graph of the GA counterexample: edges
`(0,1), (0,2), (1,2), (1,3), (2,3)` with `link_delay_ms = 10` on `(0,2)` and
`(2,3)` and `1` elsewhere; trivial reliabilities, capacity `1000`. -/
def gaCxGraph : NetGraph ℚ :=
  { nodes := [0, 1, 2, 3]
    edgeList := [(0, 1), (0, 2), (1, 2), (1, 3), (2, 3)]
    nAttr := fun _ => ⟨0, 1⟩
    eAttr := fun u v =>
      { link_delay_ms :=
          if min u v = 0 ∧ max u v = 2 ∨ min u v = 2 ∧ max u v = 3 then 10
          else 1
        capacity_mbps := 1000
        link_reliability := 1 } }

/-- The oracle stream of the GA counterexample run: it builds the initial
population `[[0,1,2,3], [0,2,1,3], [0,1,2,3], [0,2,1,3]]`, crosses the two
distinct parents at common node `2` (producing the non-simple child
`[0,1,2,1,3]`), and never mutates. -/
def gaCxStream : Nat → Nat := fun n =>
  [0, 0, 0, 1, 0, 0, 0, 0, 0, 1, 0, 0, 0, 1, 1, 1, 1, 0, 1, 1, 1, 1].getD n 1

end GeneticAlgorithm

/-- The endpoint-and-edge-chain part of path integrity (the guarantee the
genetic algorithm actually provides: simplicity is dropped). -/
def GAInvS {K : Type} (g : NetGraph K) (src dst : Nat) (p : List Nat) : Prop :=
  p.head? = some src ∧ p.getLast? = some dst ∧ EdgeChain g p

section Harness

variable {K : Type} [LinearOrderedField K]

/-- One recorded run of `compare`: `(total_cost, runtime_ms, path)` with
`total_cost = none` for the `float("inf")` failure sentinel (the
`PathMetrics` slot is not modelled: no claim touches the averaged metric
columns). -/
def HarnessRun (K : Type) : Type := Option K × K × List Nat

/-- `statistics.mean`: sum over length. -/
def listMean (l : List K) : K := l.foldl (· + ·) 0 / (l.length : K)

/-- The sample variance inside `statistics.stdev` (denominator `n - 1`). -/
def sampleVar (l : List K) : K :=
  let m := listMean l
  (l.foldl (fun a x => a + (x - m) ^ 2) 0) / ((l.length : K) - 1)

/-- A per-algorithm summary row of `compare` (the cost/runtime statistics
columns) together with the entry of `best_paths_by_algo`. -/
structure AlgoSummary (K : Type) where
  avgCost : K
  stdCost : K
  bestCost : K
  worstCost : K
  avgRuntime : K
  bestPath : List Nat
deriving DecidableEq

/-- The aggregation stage of `adapter.compare` for one algorithm
(lines building `summary_table` and `best_paths_by_algo`): filter the
finite costs, take mean / stdev / min / max over them and the mean runtime
over all runs, then look up the best path as `runs[costs.index(best_cost)]`
— note the index into the *filtered* cost list is applied to the
*unfiltered* run list.  `ksqrt` models `math.sqrt` inside
`statistics.stdev`; `none` is the all-failures sentinel row. -/
def summarizeRuns (ksqrt : K → K) (runs : List (HarnessRun K)) :
    Option (AlgoSummary K) :=
  let costs := runs.filterMap (fun x => x.1)
  let runtimes := runs.map (fun x => x.2.1)
  if costs.isEmpty then none
  else
    let avgCost := listMean costs
    let stdCost := if 1 < costs.length then ksqrt (sampleVar costs) else 0
    let bestCost := costs.foldl min (costs.headD 0)
    let worstCost := costs.foldl max (costs.headD 0)
    let avgRuntime := if runtimes.isEmpty then 0 else listMean runtimes
    let bestIdx := costs.indexOf bestCost
    let bestPath := (runs.getD bestIdx (none, 0, [])).2.2
    some ⟨avgCost, stdCost, bestCost, worstCost, avgRuntime, bestPath⟩

end Harness

section AcoWrapper

variable {K : Type} [LinearOrderedField K]

/-- The lazy pheromone initialization of `_wrap_aco`:
`if 'pheromone' not in G[u][v]: G[u][v]['pheromone'] = initial_pheromone`. -/
def initPheromone (g : NetGraph K) (tau0 : K) : NetGraph K :=
  g.edgeList.foldl
    (fun gr uv =>
      if (gr.eAttr uv.1 uv.2).pheromone.isNone then setPheromone gr uv.1 uv.2 tau0
      else gr)
    g

/-- The ant loop of one `_wrap_aco` iteration: walks are read-only on the
run's graph; the collected `(path, cost)` list and the best-so-far are
threaded.  The final `Bool` is false when a `ValueError` escapes the cost
computation (only possible for a degenerate single-node walk, i.e.
`src = dst`); `compare` catches it, so the model returns the state reached
so far. -/
def acoRunAnts (g : NetGraph K) (rlog : K → K) (src dst : Nat) (demandBw : K)
    (weights : Weights K) (alpha beta : K) (kpow : K → K → K) :
    Nat → List (List Nat × K) → Option (List Nat × K) → RandO →
    List (List Nat × K) × Option (List Nat × K) × RandO × Bool
  | 0, iterPaths, best, r => (iterPaths, best, r, true)
  | ants + 1, iterPaths, best, r =>
    let (walk, r1) := antWalk g src dst demandBw (fun _ _ _ => 1) alpha beta kpow r
    match walk with
    | none => acoRunAnts g rlog src dst demandBw weights alpha beta kpow ants
        iterPaths best r1
    | some p =>
      match engineCompute g rlog p (some demandBw) with
      | .error _ => (iterPaths, best, r1, false)
      | .ok m =>
        match weightedSum m weights (defaultPenalty K) with
        | .error _ => (iterPaths, best, r1, false)
        | .ok cost =>
          let best1 := match best with
            | none => some (p, cost)
            | some bp => if cost < bp.2 then some (p, cost) else some bp
          acoRunAnts g rlog src dst demandBw weights alpha beta kpow ants
            (iterPaths ++ [(p, cost)]) best1 r1

/-- The iteration loop of `_wrap_aco`: after the ants of an iteration, each
collected path deposits pheromone and the whole graph evaporates — the only
attribute writes in the system. -/
def acoIterLoop (rlog : K → K) (src dst : Nat) (demandBw rho q alpha beta : K)
    (weights : Weights K) (kpow : K → K → K) (numAnts : Nat) :
    Nat → NetGraph K → Option (List Nat × K) → RandO →
    NetGraph K × Option (List Nat × K) × RandO
  | 0, g, best, r => (g, best, r)
  | iters + 1, g, best, r =>
    let (iterPaths, best1, r1, ok) :=
      acoRunAnts g rlog src dst demandBw weights alpha beta kpow numAnts [] best r
    if !ok then (g, best1, r1)
    else
      let g1 := iterPaths.foldl (fun gr pc => updatePheromone gr pc.1 pc.2 q) g
      let g2 := evaporatePheromone g1 rho
      acoIterLoop rlog src dst demandBw rho q alpha beta weights kpow numAnts
        iters g2 best1 r1

/-- `adapter._wrap_aco` at the graph level: initialize pheromone, run the
iterations, return the mutated run graph and the best path (the trailing
metric re-computation only reads). -/
def wrapAcoGraph (rlog : K → K) (kpow : K → K → K) (g : NetGraph K)
    (src dst : Nat) (weights : Weights K) (numIterations numAnts : Nat)
    (demandBw rho q alpha beta tau0 : K) (r : RandO) :
    NetGraph K × Option (List Nat) × RandO :=
  let g0 := initPheromone g tau0
  let (g1, best, r1) := acoIterLoop rlog src dst demandBw rho q alpha beta
    weights kpow numAnts numIterations g0 none r
  (g1, best.map (fun x => x.1), r1)

end AcoWrapper

section HarnessHeap

variable {K : Type} [LinearOrderedField K]

/-- The Python object store restricted to graphs: references are allocation
indices; `G.copy()` allocates a fresh reference holding the (value) copy.
NetworkX `Graph.copy` copies the per-edge and per-node attribute dicts, and
all attribute values here are immutable floats, so a write through one
reference is never visible through another. -/
structure GHeap (K : Type) where
  store : Nat → NetGraph K
  nextRef : Nat

/-- Dereference. -/
def GHeap.read (h : GHeap K) (r : Nat) : NetGraph K := h.store r

/-- In-place mutation through a reference. -/
def GHeap.write (h : GHeap K) (r : Nat) (g : NetGraph K) : GHeap K :=
  { h with store := fun x => if x = r then g else h.store x }

/-- Allocation (`G.copy()` and other graph constructions). -/
def GHeap.alloc (h : GHeap K) (g : NetGraph K) : Nat × GHeap K :=
  (h.nextRef,
    { store := fun x => if x = h.nextRef then g else h.store x,
      nextRef := h.nextRef + 1 })

/-- The four dispatched algorithms, in `compare`'s fixed order. -/
inductive AlgoKind : Type
  | aco
  | genetic
  | qlearning
  | sa
deriving DecidableEq

/-- One run of `compare`'s inner loop: `G_copy = G.copy()` allocates a fresh
reference, then the wrapper runs on that reference.  Only `_wrap_aco`
mutates its graph; `_wrap_genetic`, `_wrap_qlearning` and `_wrap_sa` never
assign a node or edge attribute (SA builds fresh filtered graphs), so they
are modelled as pure functions of the copied value, supplied as parameters
`gaF`, `qlF`, `saF`. -/
def compareRunOne (rlog : K → K) (kpow : K → K → K) (src dst : Nat)
    (weights : Weights K) (numIterations numAnts : Nat)
    (demandBw rho q alpha beta tau0 : K)
    (gaF qlF saF : NetGraph K → RandO → Option (List Nat) × RandO)
    (kind : AlgoKind) (h : GHeap K) (rG : Nat) (r : RandO) :
    GHeap K × Option (List Nat) × RandO :=
  let a := h.alloc (h.read rG)
  match kind with
  | .aco =>
    let res := wrapAcoGraph rlog kpow (a.2.read a.1) src dst weights
      numIterations numAnts demandBw rho q alpha beta tau0 r
    (a.2.write a.1 res.1, res.2.1, res.2.2)
  | .genetic =>
    (a.2, (gaF (a.2.read a.1) r).1, (gaF (a.2.read a.1) r).2)
  | .qlearning =>
    (a.2, (qlF (a.2.read a.1) r).1, (qlF (a.2.read a.1) r).2)
  | .sa =>
    (a.2, (saF (a.2.read a.1) r).1, (saF (a.2.read a.1) r).2)

/-- The `for run_id in range(1, num_runs + 1)` loop for one algorithm. -/
def compareNRuns (rlog : K → K) (kpow : K → K → K) (src dst : Nat)
    (weights : Weights K) (numIterations numAnts : Nat)
    (demandBw rho q alpha beta tau0 : K)
    (gaF qlF saF : NetGraph K → RandO → Option (List Nat) × RandO)
    (kind : AlgoKind) (rG : Nat) :
    Nat → GHeap K → List (Option (List Nat)) → RandO →
    GHeap K × List (Option (List Nat)) × RandO
  | 0, h, acc, r => (h, acc, r)
  | n + 1, h, acc, r =>
    let (h1, res, r1) := compareRunOne rlog kpow src dst weights numIterations
      numAnts demandBw rho q alpha beta tau0 gaF qlF saF kind h rG r
    compareNRuns rlog kpow src dst weights numIterations numAnts demandBw rho
      q alpha beta tau0 gaF qlF saF kind rG n h1 (acc ++ [res]) r1

/-- The dispatch stage of `adapter.compare`: for each algorithm in the fixed
order, `N` runs, each on a fresh `G.copy()`. -/
def compareDispatch (rlog : K → K) (kpow : K → K → K) (src dst : Nat)
    (weights : Weights K) (numIterations numAnts : Nat)
    (demandBw rho q alpha beta tau0 : K)
    (gaF qlF saF : NetGraph K → RandO → Option (List Nat) × RandO)
    (rG : Nat) (numRuns : Nat) (h : GHeap K) (r : RandO) :
    GHeap K × List (Option (List Nat)) × RandO :=
  [AlgoKind.aco, AlgoKind.genetic, AlgoKind.qlearning, AlgoKind.sa].foldl
    (fun st kind =>
      let (h1, acc1, r1) := st
      compareNRuns rlog kpow src dst weights numIterations numAnts demandBw
        rho q alpha beta tau0 gaF qlF saF kind rG numRuns h1 acc1 r1)
    (h, [], r)

end HarnessHeap

section ClaimC4

/-- C4.  `weighted_sum` postcondition: for every `PathMetrics m`, every weight
triple with non-negative components and positive sum and every penalty `p`,
`weighted_sum m w (infeasible_penalty := p)` returns the dot product of the
sum-normalized weights with `(total_delay_ms, reliability_cost,
resource_cost)`, plus `p` exactly when `feasible_for_demand` is false;
`weighted_sum` is invariant under scaling the weight triple by any `c > 0`;
and it raises `ValueError` when the components sum to `≤ 0`. -/
theorem weightedSum_postcondition {K : Type} [LinearOrderedField K]
    (m : PathMetrics K) (w : Weights K) (p c : K) :
    (0 ≤ w.w_delay → 0 ≤ w.w_reliability → 0 ≤ w.w_resource →
      0 < w.w_delay + w.w_reliability + w.w_resource →
      weightedSum m w p = .ok
        (w.w_delay / (w.w_delay + w.w_reliability + w.w_resource)
            * m.total_delay_ms
          + w.w_reliability / (w.w_delay + w.w_reliability + w.w_resource)
            * m.reliability_cost
          + w.w_resource / (w.w_delay + w.w_reliability + w.w_resource)
            * m.resource_cost
          + (if m.feasible_for_demand then 0 else p))) ∧
    (0 < c →
      weightedSum m ⟨c * w.w_delay, c * w.w_reliability, c * w.w_resource⟩ p
        = weightedSum m w p) ∧
    (w.w_delay + w.w_reliability + w.w_resource ≤ 0 →
      weightedSum m w p = .error ()) := by
  refine ⟨?_, ?_, ?_⟩
  · intro _ _ _ h4
    simp only [weightedSum, Weights.normalizedE, if_neg (not_le.mpr h4)]
    split <;> simp
  · intro hc
    simp only [weightedSum, Weights.normalizedE]
    have hsum : c * w.w_delay + c * w.w_reliability + c * w.w_resource
        = c * (w.w_delay + w.w_reliability + w.w_resource) := by ring
    rcases le_or_lt (w.w_delay + w.w_reliability + w.w_resource) 0 with h | h
    · rw [if_pos h, if_pos (by rw [hsum]; exact mul_nonpos_of_nonneg_of_nonpos hc.le h)]
    · rw [if_neg (not_le.mpr h),
        if_neg (not_le.mpr (by rw [hsum]; exact mul_pos hc h))]
      rw [hsum]
      rw [mul_div_mul_left _ _ (ne_of_gt hc), mul_div_mul_left _ _ (ne_of_gt hc),
        mul_div_mul_left _ _ (ne_of_gt hc)]
  · intro h
    simp only [weightedSum, Weights.normalizedE, if_pos h]
    rfl

/-- Concrete instance of `weightedSum_postcondition`. -/
theorem weightedSum_postcondition_witness :
    (weightedSum (K := ℚ) ⟨1, 2, 3, 1, ⊤, false⟩ ⟨1, 1, 2⟩ 5 = .ok
      ((1 : ℚ) / (1 + 1 + 2) * 1 + 1 / (1 + 1 + 2) * 2 + 2 / (1 + 1 + 2) * 3
        + (if (false : Bool) then 0 else 5))) ∧
    (weightedSum (K := ℚ) ⟨1, 2, 3, 1, ⊤, false⟩ ⟨3 * 1, 3 * 1, 3 * 2⟩ 5
      = weightedSum (K := ℚ) ⟨1, 2, 3, 1, ⊤, false⟩ ⟨1, 1, 2⟩ 5) ∧
    (weightedSum (K := ℚ) ⟨1, 2, 3, 1, ⊤, false⟩ ⟨0, -1, 0⟩ 5 = .error ()) := by
  refine ⟨?_, ?_, ?_⟩
  · exact (weightedSum_postcondition ⟨1, 2, 3, 1, ⊤, false⟩ ⟨1, 1, 2⟩ 5 3).1
      (by norm_num) (by norm_num) (by norm_num) (by norm_num)
  · exact (weightedSum_postcondition ⟨1, 2, 3, 1, ⊤, false⟩ ⟨1, 1, 2⟩ 5 3).2.1
      (by norm_num)
  · exact (weightedSum_postcondition ⟨1, 2, 3, 1, ⊤, false⟩ ⟨0, -1, 0⟩ 5 3).2.2
      (by norm_num)

end ClaimC4

section ClaimC10

/-- C10.  Implicit edge case: for every graph, demand, heuristic, exponents
and oracle, `ant_walk(G, start, start, ...)` returns the single-node list
`[start]` — the walk loop is never entered, so no neighbor enumeration,
capacity filtering or edge traversal occurs; callers needing a two-node
routing answer must guard `S ≠ D` themselves. -/
theorem antWalk_start_eq_end {K : Type} [LinearOrderedField K]
    (g : NetGraph K) (start : Nat) (demandBw : K)
    (heuristic : NetGraph K → Nat → Nat → K) (alpha beta : K)
    (kpow : K → K → K) (r : RandO) :
    (antWalk g start start demandBw heuristic alpha beta kpow r).1
      = some [start] := by
  simp [antWalk, antWalkAux]

end ClaimC10

section ClaimC7

/-- C7 counterexample.  With pheromone `5000` on the edge, heuristic `1`,
the default exponents `alpha = 1`, `beta = 2` and `**` evaluated at those
exponents, `ant_walk`'s selection weight list for the single feasible
neighbor is `[1000]` — the walk clamps pheromone at `1000` — while the
claim's formula with `tau_max = 10_000` yields `5000`. -/
theorem antWalk_weight_clamp_counterexample :
    (antWalkWeights
        (K := ℚ)
        ⟨[0, 1], [(0, 1)], fun _ => ⟨0, 1⟩,
          fun _ _ => { link_delay_ms := 0, capacity_mbps := 100,
                       link_reliability := 1, pheromone := some 5000 }⟩
        (fun _ _ _ => 1) 1 2 (fun b e => if e = 1 then b else b * b) 10 0 [0]
      = [1000]) ∧
    (antEdgeWeightSpec
        (K := ℚ)
        ⟨[0, 1], [(0, 1)], fun _ => ⟨0, 1⟩,
          fun _ _ => { link_delay_ms := 0, capacity_mbps := 100,
                       link_reliability := 1, pheromone := some 5000 }⟩
        (fun _ _ _ => 1) 1 2 (fun b e => if e = 1 then b else b * b) 0 1
      = 5000) ∧ (1000 : ℚ) ≠ 5000 := by
  refine ⟨?_, ?_, by norm_num⟩
  · norm_num [antWalkWeights, antFeasibleNeighbors, antEdgeWeight, neighborsOf,
      min_def, max_def]
  · norm_num [antEdgeWeightSpec, min_def, max_def]

/-- C7 as amended: the weight list handed to the weighted random choice
assigns to every feasible unvisited neighbor `n` of `current` exactly
`max(min(tau(current, n), 1000)^alpha * eta(current, n)^beta, 1e-6)` — the
walk-side pheromone clamp is `1000`, not the deposit bound `10_000` — with
`tau` defaulting to `0.1` on edges without a pheromone attribute and
`eta = heuristic_fn(G, current, n)`. -/
theorem antWalk_weight_formula {K : Type} [LinearOrderedField K]
    (g : NetGraph K) (heuristic : NetGraph K → Nat → Nat → K)
    (alpha beta : K) (kpow : K → K → K) (demandBw : K) (current : Nat)
    (visited : List Nat) :
    antWalkWeights g heuristic alpha beta kpow demandBw current visited
      = (antFeasibleNeighbors g demandBw current visited).map
          (fun n =>
            max
              (kpow (min ((g.eAttr current n).pheromone.getD (1 / 10)) 1000) alpha
                * kpow (heuristic g current n) beta)
              (1 / 1000000)) := rfl

end ClaimC7

section ClaimC8

/-- C8.  Harness aggregation at a failing input: for an algorithm whose
first run fails (`total_cost = inf`) and whose second run succeeds with the
minimum cost `5` on path `[0, 1]`, `compare`'s summary correctly reports
mean/std/best/worst over the successes and the mean runtime over both runs,
but `best_paths_by_algo` receives `runs[costs.index(best_cost)] = runs[0]`,
the failed run's empty path, instead of the best run's `[0, 1]` — the index
computed in the filtered cost list is applied to the unfiltered run list. -/
theorem compare_best_path_misindexed :
    (summarizeRuns (K := ℚ) id [(none, 1, []), (some 5, 1, [0, 1])]
      = some ⟨5, 0, 5, 5, 1, []⟩) ∧
    (∀ run ∈ [((none : Option ℚ), (1 : ℚ), ([] : List Nat)),
        (some 5, 1, [0, 1])], run.1 = some 5 → run.2.2 = [0, 1]) ∧
    ([] : List Nat) ≠ [0, 1] := by
  refine ⟨?_, by decide, by decide⟩
  simp [summarizeRuns, listMean, sampleVar, List.indexOf, List.findIdx,
    List.findIdx.go]

end ClaimC8

section EngineLemmas

theorem edgeFoldM_ok {K : Type} {β : Type} (g : NetGraph K) (f : β → EdgeAttr K → β)
    (init : β) (l : List (Nat × Nat))
    (h : ∀ uv ∈ l, hasEdge g uv.1 uv.2 = true) :
    edgeFoldM g f init l
      = .ok (l.foldl (fun acc uv => f acc (g.eAttr uv.1 uv.2)) init) := by
  induction l generalizing init with
  | nil => rfl
  | cons a l ih =>
    have ha := h a (List.mem_cons_self _ _)
    simp only [edgeFoldM, List.foldlM_cons, engineEdge, ha, if_true,
      List.foldl_cons]
    exact ih _ (fun uv huv => h uv (List.mem_cons_of_mem _ huv))

theorem edgeFoldM_error {K : Type} {β : Type} (g : NetGraph K) (f : β → EdgeAttr K → β)
    (init : β) (l : List (Nat × Nat))
    (h : ∃ uv ∈ l, hasEdge g uv.1 uv.2 = false) :
    edgeFoldM g f init l = .error () := by
  induction l generalizing init with
  | nil => simp at h
  | cons a l ih =>
    by_cases ha : hasEdge g a.1 a.2 = true
    · obtain ⟨uv, huv, hfalse⟩ := h
      rcases List.mem_cons.mp huv with rfl | htail
      · rw [ha] at hfalse; cases hfalse
      · simp only [edgeFoldM, List.foldlM_cons, engineEdge, ha, if_true]
        exact ih _ ⟨uv, htail, hfalse⟩
    · simp only [edgeFoldM, List.foldlM_cons, engineEdge, ha, if_false,
        Bool.false_eq_true]
      rfl

theorem engineCompute_ok {K : Type} [LinearOrderedField K] (g : NetGraph K)
    (rlog : K → K) (path : List Nat)
    (demand : Option K) (hlen : ¬ path.length < 2)
    (hedges : ∀ uv ∈ consecPairs path, hasEdge g uv.1 uv.2 = true) :
    engineCompute g rlog path demand
      = .ok (engineMetricsF g rlog path demand) := by
  rw [engineCompute]
  simp only [if_neg hlen]
  rw [edgeFoldM_ok _ _ _ _ hedges, edgeFoldM_ok _ _ _ _ hedges,
    edgeFoldM_ok _ _ _ _ hedges]
  rfl

theorem engineCompute_error_len {K : Type} [LinearOrderedField K]
    (g : NetGraph K) (rlog : K → K)
    (path : List Nat) (demand : Option K) (hlen : path.length < 2) :
    engineCompute g rlog path demand = .error () := by
  rw [engineCompute]
  simp only [if_pos hlen]
  rfl

theorem engineCompute_error_edge {K : Type} [LinearOrderedField K]
    (g : NetGraph K) (rlog : K → K)
    (path : List Nat) (demand : Option K) (hlen : ¬ path.length < 2)
    (h : ∃ uv ∈ consecPairs path, hasEdge g uv.1 uv.2 = false) :
    engineCompute g rlog path demand = .error () := by
  rw [engineCompute]
  simp only [if_neg hlen]
  rw [edgeFoldM_error _ _ _ _ h]
  rfl

end EngineLemmas

section ClaimC5

/-- C5.  `compute` raises-iff: on a graph carrying the canonical attributes,
`MetricsEngine.compute(path, demand)` raises `ValueError` exactly when the
path is `None`, has fewer than two nodes, or contains a consecutive pair
that is not an edge of the graph; in particular a path with repeated nodes
whose consecutive pairs are all edges is scored and returned, not
rejected. -/
theorem engineCompute_error_iff {K : Type} [LinearOrderedField K]
    (g : NetGraph K) (rlog : K → K) (path : Option (List Nat))
    (demand : Option K) :
    engineComputeOpt g rlog path demand = .error ()
      ↔ path = none
        ∨ ∃ p, path = some p
            ∧ (p.length < 2 ∨ ∃ uv ∈ consecPairs p, hasEdge g uv.1 uv.2 = false) := by
  cases path with
  | none => simp [engineComputeOpt]
  | some p =>
    simp only [engineComputeOpt, Option.some.injEq, reduceCtorEq, false_or]
    constructor
    · intro herr
      refine ⟨p, rfl, ?_⟩
      by_cases hlen : p.length < 2
      · exact Or.inl hlen
      · refine Or.inr ?_
        by_contra hall
        push_neg at hall
        have hedges : ∀ uv ∈ consecPairs p, hasEdge g uv.1 uv.2 = true := by
          intro uv huv
          have := hall uv huv
          revert this
          cases hasEdge g uv.1 uv.2 <;> simp
        rw [engineCompute_ok g rlog p demand hlen hedges] at herr
        cases herr
    · rintro ⟨q, rfl, hcase⟩
      rcases hcase with hlen | hedge
      · exact engineCompute_error_len g rlog p demand hlen
      · by_cases hlen : p.length < 2
        · exact engineCompute_error_len g rlog p demand hlen
        · exact engineCompute_error_edge g rlog p demand hlen hedge

end ClaimC5

section ClaimC6

theorem relFoldl_inv {α : Type} (rho : α → ℝ) (L : List α) (acc : ℝ × ℝ)
    (hrho : ∀ a ∈ L, 0 < rho a ∧ rho a ≤ 1)
    (h1 : acc.2 = Real.exp (-acc.1)) (h2 : 0 < acc.2) (h3 : acc.2 ≤ 1) :
    (L.foldl (fun acc a =>
        let r := max (rho a) (engineEps ℝ)
        (acc.1 + -Real.log r, acc.2 * r)) acc).2
      = Real.exp (-(L.foldl (fun acc a =>
          let r := max (rho a) (engineEps ℝ)
          (acc.1 + -Real.log r, acc.2 * r)) acc).1)
    ∧ 0 < (L.foldl (fun acc a =>
        let r := max (rho a) (engineEps ℝ)
        (acc.1 + -Real.log r, acc.2 * r)) acc).2
    ∧ (L.foldl (fun acc a =>
        let r := max (rho a) (engineEps ℝ)
        (acc.1 + -Real.log r, acc.2 * r)) acc).2 ≤ 1 := by
  induction L generalizing acc with
  | nil => exact ⟨h1, h2, h3⟩
  | cons a L ih =>
    have ha := hrho a (List.mem_cons_self _ _)
    have hr : 0 < max (rho a) (engineEps ℝ) := lt_max_of_lt_left ha.1
    have hr1 : max (rho a) (engineEps ℝ) ≤ 1 :=
      max_le ha.2 (by norm_num [engineEps])
    simp only [List.foldl_cons]
    apply ih
    · exact fun b hb => hrho b (List.mem_cons_of_mem _ hb)
    · show acc.2 * max (rho a) (engineEps ℝ)
        = Real.exp (-(acc.1 + -Real.log (max (rho a) (engineEps ℝ))))
      rw [h1, neg_add, neg_neg, Real.exp_add, Real.exp_log hr]
    · exact mul_pos h2 hr
    · exact mul_le_one₀ h3 hr.le hr1

/-- C6.  Reliability law: whenever `compute` accepts a path on a graph whose
node and link reliabilities lie in `(0, 1]`, the returned metrics satisfy
`total_reliability = exp(-reliability_cost)` exactly, in real arithmetic
(both are accumulated from the same per-element reliabilities clamped below
at `eps = 1e-12`), and `total_reliability` lies in `(0, 1]`. -/
theorem reliability_law (g : NetGraph ℝ) (path : List Nat)
    (demand : Option ℝ) (m : PathMetrics ℝ)
    (hnodes : ∀ n ∈ path,
      0 < (g.nAttr n).node_reliability ∧ (g.nAttr n).node_reliability ≤ 1)
    (hedges : ∀ uv ∈ consecPairs path,
      0 < (g.eAttr uv.1 uv.2).link_reliability
        ∧ (g.eAttr uv.1 uv.2).link_reliability ≤ 1)
    (h : engineCompute g Real.log path demand = .ok m) :
    m.total_reliability = Real.exp (-m.reliability_cost)
      ∧ 0 < m.total_reliability ∧ m.total_reliability ≤ 1 := by
  by_cases hlen : path.length < 2
  · rw [engineCompute_error_len g Real.log path demand hlen] at h
    cases h
  · by_cases hed : ∀ uv ∈ consecPairs path, hasEdge g uv.1 uv.2 = true
    · rw [engineCompute_ok g Real.log path demand hlen hed] at h
      injection h with h
      subst h
      have hnode := relFoldl_inv (fun n => (g.nAttr n).node_reliability) path
        ((0 : ℝ), (1 : ℝ)) hnodes (by simp) (by norm_num) (by norm_num)
      have hlink := relFoldl_inv
        (fun uv : Nat × Nat => (g.eAttr uv.1 uv.2).link_reliability)
        (consecPairs path) (nodeRelF g Real.log path) hedges
        hnode.1 hnode.2.1 hnode.2.2
      exact ⟨hlink.1, hlink.2.1, hlink.2.2⟩
    · push_neg at hed
      obtain ⟨uv, huv, hfalse⟩ := hed
      rw [engineCompute_error_edge g Real.log path demand hlen
        ⟨uv, huv, by revert hfalse; cases hasEdge g uv.1 uv.2 <;> simp⟩] at h
      cases h

/-- Concrete instance of `reliability_law` on the one-edge graph with all
reliabilities `1`. -/
theorem reliability_law_witness :
    engineCompute
        (⟨[0, 1], [(0, 1)], fun _ => ⟨0, 1⟩,
          fun _ _ => { link_delay_ms := 0, capacity_mbps := 1000,
                       link_reliability := 1 }⟩ : NetGraph ℝ)
        Real.log [0, 1] none
      = .ok ⟨0, 0, 1, 1, (1000 : WithTop ℝ), true⟩
    ∧ ((1 : ℝ) = Real.exp (-(0 : ℝ)) ∧ 0 < (1 : ℝ) ∧ (1 : ℝ) ≤ 1) := by
  have h : engineCompute
      (⟨[0, 1], [(0, 1)], fun _ => ⟨0, 1⟩,
        fun _ _ => { link_delay_ms := 0, capacity_mbps := 1000,
                     link_reliability := 1 }⟩ : NetGraph ℝ)
      Real.log [0, 1] none
      = .ok ⟨0, 0, 1, 1, (1000 : WithTop ℝ), true⟩ := by
    rw [engineCompute_ok _ _ _ _ (by norm_num) (by decide)]
    congr 1
    simp [engineMetricsF, linkDelaySumF, processingSumF, nodeRelF,
      linkRelFoldF, resFoldF, consecPairs, refBW]
    norm_num [engineEps, max_def, min_def, PathMetrics.mk.injEq]
    have hc : ((1000 : WithTop ℝ)) = ((1000 : ℝ) : WithTop ℝ) := by norm_cast
    rw [hc, WithTop.coe_le_coe]
    norm_num
  refine ⟨h, ?_⟩
  exact reliability_law _ [0, 1] none ⟨0, 0, 1, 1, (1000 : WithTop ℝ), true⟩
    (by norm_num) (by norm_num [consecPairs]) h

end ClaimC6

section ClaimC9

theorem compareRunOne_frame {K : Type} [LinearOrderedField K]
    (rlog : K → K) (kpow : K → K → K) (src dst : Nat) (weights : Weights K)
    (numIterations numAnts : Nat) (demandBw rho q alpha beta tau0 : K)
    (gaF qlF saF : NetGraph K → RandO → Option (List Nat) × RandO)
    (kind : AlgoKind) (h : GHeap K) (rG : Nat) (r : RandO) :
    (∀ x, x < h.nextRef →
      ((compareRunOne rlog kpow src dst weights numIterations numAnts demandBw
          rho q alpha beta tau0 gaF qlF saF kind h rG r).1).store x = h.store x)
    ∧ h.nextRef
        ≤ ((compareRunOne rlog kpow src dst weights numIterations numAnts
            demandBw rho q alpha beta tau0 gaF qlF saF kind h rG r).1).nextRef := by
  cases kind <;>
    exact ⟨fun x hx => by
        simp [compareRunOne, GHeap.alloc, GHeap.write, Nat.ne_of_lt hx],
      by simp [compareRunOne, GHeap.alloc, GHeap.write]⟩

theorem compareNRuns_frame {K : Type} [LinearOrderedField K]
    (rlog : K → K) (kpow : K → K → K) (src dst : Nat) (weights : Weights K)
    (numIterations numAnts : Nat) (demandBw rho q alpha beta tau0 : K)
    (gaF qlF saF : NetGraph K → RandO → Option (List Nat) × RandO)
    (kind : AlgoKind) (rG : Nat) (n : Nat) (h : GHeap K)
    (acc : List (Option (List Nat))) (r : RandO) :
    (∀ x, x < h.nextRef →
      ((compareNRuns rlog kpow src dst weights numIterations numAnts demandBw
          rho q alpha beta tau0 gaF qlF saF kind rG n h acc r).1).store x
        = h.store x)
    ∧ h.nextRef
        ≤ ((compareNRuns rlog kpow src dst weights numIterations numAnts
            demandBw rho q alpha beta tau0 gaF qlF saF kind rG n h acc
            r).1).nextRef := by
  induction n generalizing h acc r with
  | zero => exact ⟨fun x _ => rfl, le_refl _⟩
  | succ n ih =>
    have h1 := compareRunOne_frame rlog kpow src dst weights numIterations
      numAnts demandBw rho q alpha beta tau0 gaF qlF saF kind h rG r
    simp only [compareNRuns]
    have h2 := ih ((compareRunOne rlog kpow src dst weights numIterations
        numAnts demandBw rho q alpha beta tau0 gaF qlF saF kind h rG r).1)
      (acc ++ [(compareRunOne rlog kpow src dst weights numIterations numAnts
        demandBw rho q alpha beta tau0 gaF qlF saF kind h rG r).2.1])
      ((compareRunOne rlog kpow src dst weights numIterations numAnts demandBw
        rho q alpha beta tau0 gaF qlF saF kind h rG r).2.2)
    constructor
    · intro x hx
      rw [h2.1 x (lt_of_lt_of_le hx h1.2), h1.1 x hx]
    · exact le_trans h1.2 h2.2

theorem compareFold_frame {K : Type} [LinearOrderedField K]
    (rlog : K → K) (kpow : K → K → K) (src dst : Nat) (weights : Weights K)
    (numIterations numAnts : Nat) (demandBw rho q alpha beta tau0 : K)
    (gaF qlF saF : NetGraph K → RandO → Option (List Nat) × RandO)
    (rG numRuns : Nat) (kinds : List AlgoKind) (h : GHeap K)
    (acc : List (Option (List Nat))) (r : RandO) :
    (∀ x, x < h.nextRef →
      ((kinds.foldl
          (fun st kind =>
            let a := st
            compareNRuns rlog kpow src dst weights numIterations numAnts
              demandBw rho q alpha beta tau0 gaF qlF saF kind rG numRuns a.1
              a.2.1 a.2.2)
          (h, acc, r)).1).store x = h.store x)
    ∧ h.nextRef
        ≤ ((kinds.foldl
            (fun st kind =>
              let a := st
              compareNRuns rlog kpow src dst weights numIterations numAnts
                demandBw rho q alpha beta tau0 gaF qlF saF kind rG numRuns a.1
                a.2.1 a.2.2)
            (h, acc, r)).1).nextRef := by
  induction kinds generalizing h acc r with
  | nil => exact ⟨fun x _ => rfl, le_refl _⟩
  | cons kind kinds ih =>
    simp only [List.foldl_cons]
    have h1 := compareNRuns_frame rlog kpow src dst weights numIterations
      numAnts demandBw rho q alpha beta tau0 gaF qlF saF kind rG numRuns h acc r
    have h2 := ih ((compareNRuns rlog kpow src dst weights numIterations
        numAnts demandBw rho q alpha beta tau0 gaF qlF saF kind rG numRuns h
        acc r).1)
      ((compareNRuns rlog kpow src dst weights numIterations numAnts demandBw
        rho q alpha beta tau0 gaF qlF saF kind rG numRuns h acc r).2.1)
      ((compareNRuns rlog kpow src dst weights numIterations numAnts demandBw
        rho q alpha beta tau0 gaF qlF saF kind rG numRuns h acc r).2.2)
    constructor
    · intro x hx
      rw [h2.1 x (lt_of_lt_of_le hx h1.2), h1.1 x hx]
    · exact le_trans h1.2 h2.2

/-- C9.  Harness frame effect: after `compare(G, src, dst, ...)` the
caller's graph — every node attribute and every edge attribute, pheromone
included — is exactly what it was before the call: each of the `N` runs per
algorithm is dispatched on `G.copy()` (a fresh reference), so ACO's
pheromone initialization, deposits and evaporation mutate only the per-run
copy; the GA / Q-Learning / SA wrappers perform no attribute writes at
all. -/
theorem compare_frame_effect {K : Type} [LinearOrderedField K]
    (rlog : K → K) (kpow : K → K → K) (src dst : Nat) (weights : Weights K)
    (numIterations numAnts : Nat) (demandBw rho q alpha beta tau0 : K)
    (gaF qlF saF : NetGraph K → RandO → Option (List Nat) × RandO)
    (rG numRuns : Nat) (h : GHeap K) (r : RandO) (hvalid : rG < h.nextRef) :
    ((compareDispatch rlog kpow src dst weights numIterations numAnts demandBw
        rho q alpha beta tau0 gaF qlF saF rG numRuns h r).1).read rG
      = h.read rG := by
  have := compareFold_frame rlog kpow src dst weights numIterations numAnts
    demandBw rho q alpha beta tau0 gaF qlF saF rG numRuns
    [AlgoKind.aco, AlgoKind.genetic, AlgoKind.qlearning, AlgoKind.sa] h [] r
  exact this.1 rG hvalid

/-- Concrete instance of `compare_frame_effect`: a one-edge graph stored at
reference `0` of a one-reference heap is untouched by a five-run
comparison. -/
theorem compare_frame_effect_witness :
    ((compareDispatch (K := ℚ) (fun _ => 0) (fun b _ => b) 0 1 ⟨1, 1, 1⟩ 2 2
        1 (1 / 10) 10 1 2 (1 / 10)
        (fun _ r => (none, r)) (fun _ r => (none, r)) (fun _ r => (none, r))
        0 5
        ⟨fun _ => ⟨[0, 1], [(0, 1)],
          fun _ => ⟨0, 1⟩,
          fun _ _ => { link_delay_ms := 0, capacity_mbps := 100,
                       link_reliability := 1 }⟩, 1⟩
        ⟨fun _ => 0, 0⟩).1).read 0
      = (⟨fun _ => ⟨[0, 1], [(0, 1)],
          fun _ => ⟨0, 1⟩,
          fun _ _ => { link_delay_ms := 0, capacity_mbps := 100,
                       link_reliability := 1 }⟩, 1⟩ : GHeap ℚ).read 0 :=
  compare_frame_effect (fun _ => 0) (fun b _ => b) 0 1 ⟨1, 1, 1⟩ 2 2 1
    (1 / 10) 10 1 2 (1 / 10) (fun _ r => (none, r)) (fun _ r => (none, r))
    (fun _ r => (none, r)) 0 5 _ ⟨fun _ => 0, 0⟩ (by norm_num)

end ClaimC9

section ClaimC3

theorem contains_true_of_mem {α : Type} [BEq α] [LawfulBEq α] {l : List α}
    {x : α} (h : x ∈ l) : l.contains x = true :=
  List.elem_iff.mpr h

theorem neighborsOf_hasEdge {K : Type} (g : NetGraph K) (u n : Nat)
    (h : n ∈ neighborsOf g u) : hasEdge g u n = true := by
  unfold neighborsOf at h
  rw [List.mem_flatMap] at h
  obtain ⟨e, he, hn⟩ := h
  unfold hasEdge
  rw [Bool.or_eq_true]
  by_cases h1 : e.1 = u
  · simp [h1] at hn
    subst hn
    refine Or.inl (contains_true_of_mem ?_)
    have : e = (u, e.2) := by cases e; simp_all
    rw [← this]; exact he
  · simp [h1] at hn
    by_cases h2 : e.2 = u
    · simp [h2] at hn
      refine Or.inr (contains_true_of_mem ?_)
      have he2 : e = (n, u) := by
        cases e
        simp_all
      rw [← he2]; exact he
    · simp [h2] at hn

theorem antWalkAux_sound {K : Type} [LinearOrderedField K] (g : NetGraph K)
    (endNode : Nat) (demandBw : K) (heuristic : NetGraph K → Nat → Nat → K)
    (alpha beta : K) (kpow : K → K → K) :
    ∀ (fuel current : Nat) (path visited : List Nat) (r : RandO)
      (p : List Nat) (r2 : RandO),
      path ≠ [] → path.getLast? = some current →
      EdgeChain g path → path.Nodup → (∀ x ∈ path, x ∈ visited) →
      antWalkAux g endNode demandBw heuristic alpha beta kpow fuel current
        path visited r = (some p, r2) →
      p.head? = path.head? ∧ p.getLast? = some endNode ∧ EdgeChain g p
        ∧ p.Nodup := by
  intro fuel
  induction fuel with
  | zero =>
    intro current path visited r p r2 _ _ _ _ _ h
    simp [antWalkAux] at h
  | succ fuel ih =>
    intro current path visited r p r2 hne hlast hchain hnodup hsub h
    rw [antWalkAux] at h
    by_cases hend : current = endNode
    · rw [if_pos hend] at h
      simp only [Prod.mk.injEq, Option.some.injEq] at h
      obtain ⟨rfl, -⟩ := h
      exact ⟨rfl, hend ▸ hlast, hchain, hnodup⟩
    · rw [if_neg hend] at h
      by_cases hguard : g.nodes.length < path.length
      · rw [if_pos hguard] at h
        simp at h
      · rw [if_neg hguard] at h
        by_cases hemp : (antFeasibleNeighbors g demandBw current visited).isEmpty
        · simp only [hemp, if_true] at h
          simp at h
        · simp only [hemp, if_false, Bool.false_eq_true, randIndex,
            RandO.next] at h
          have hlen : 0 < (antFeasibleNeighbors g demandBw current visited).length :=
            List.length_pos.mpr (by
              intro hnil
              rw [hnil] at hemp
              simp at hemp)
          have hidx : r.stream r.pos % (antFeasibleNeighbors g demandBw current visited).length
              < (antFeasibleNeighbors g demandBw current visited).length :=
            Nat.mod_lt _ hlen
          generalize hnext : (antFeasibleNeighbors g demandBw current visited).getD
            (r.stream r.pos % (antFeasibleNeighbors g demandBw current visited).length) 0 = next at h
          have hmemfeas : next ∈ antFeasibleNeighbors g demandBw current visited := by
            rw [← hnext, List.getD_eq_getElem _ _ hidx]
            exact List.getElem_mem _
          have hmemnb : next ∈ neighborsOf g current :=
            List.mem_of_mem_filter hmemfeas
          have hnotvis : next ∉ visited := by
            have := List.of_mem_filter hmemfeas
            simp only [Bool.and_eq_true, Bool.not_eq_true'] at this
            intro hmem
            have hc := contains_true_of_mem hmem
            rw [this.1] at hc
            cases hc
          have hedge : hasEdge g current next = true :=
            neighborsOf_hasEdge g current next hmemnb
          have hnotpath : next ∉ path := fun hmem => hnotvis (hsub next hmem)
          have hlast2 : (path ++ [next]).getLast? = some next :=
            List.getLast?_concat path
          have hchain2 : EdgeChain g (path ++ [next]) := by
            unfold EdgeChain
            rw [List.chain'_append]
            refine ⟨hchain, List.chain'_singleton _, ?_⟩
            intro x hx y hy
            simp only [List.head?_cons, Option.mem_def, Option.some.injEq] at hy
            rw [hlast] at hx
            simp only [Option.mem_def, Option.some.injEq] at hx
            subst hx; subst hy
            exact hedge
          have hnodup2 : (path ++ [next]).Nodup := by
            rw [List.nodup_append]
            exact ⟨hnodup, List.nodup_singleton _,
              fun x hx hx2 => by
                simp only [List.mem_singleton] at hx2
                exact hnotpath (hx2 ▸ hx)⟩
          have hsub2 : ∀ x ∈ path ++ [next], x ∈ next :: visited := by
            intro x hx
            rcases List.mem_append.mp hx with hx | hx
            · exact List.mem_cons_of_mem _ (hsub x hx)
            · simp only [List.mem_singleton] at hx
              exact hx ▸ List.mem_cons_self _ _
          have := ih next (path ++ [next]) (next :: visited) _ p r2
            (by simp) hlast2 hchain2 hnodup2 hsub2 h
          refine ⟨?_, this.2.1, this.2.2.1, this.2.2.2⟩
          rw [this.1]
          cases path with
          | nil => exact absurd rfl hne
          | cons a l => simp

theorem foldl_argmax_mem {K : Type} [LinearOrderedField K] (f : Nat → K) :
    ∀ (l : List Nat) (b : Nat),
      l.foldl (fun best n => if f best < f n then n else best) b = b
        ∨ l.foldl (fun best n => if f best < f n then n else best) b ∈ l := by
  intro l
  induction l with
  | nil => intro b; exact Or.inl rfl
  | cons c l ih =>
    intro b
    simp only [List.foldl_cons]
    rcases ih (if f b < f c then c else b) with h | h
    · rw [h]
      by_cases hc : f b < f c
      · rw [if_pos hc]; exact Or.inr (List.mem_cons_self _ _)
      · rw [if_neg hc]; exact Or.inl rfl
    · exact Or.inr (List.mem_cons_of_mem _ h)

theorem argmaxKey_mem {K : Type} [LinearOrderedField K] (f : Nat → K)
    (l : List Nat) (x : Nat) (h : argmaxKey f l = some x) : x ∈ l := by
  cases l with
  | nil => simp [argmaxKey] at h
  | cons a l =>
    simp only [argmaxKey, Option.some.injEq] at h
    subst h
    rcases foldl_argmax_mem f l a with h | h
    · rw [h]; exact List.mem_cons_self _ _
    · exact List.mem_cons_of_mem _ h

theorem qlGetBestPathAux_sound {K : Type} [LinearOrderedField K]
    (g : NetGraph K) (minBandwidth : K) (qtable : Nat → Nat → K)
    (target : Nat) :
    ∀ (fuel state : Nat) (path visited : List Nat) (p : List Nat),
      path ≠ [] → path.getLast? = some state →
      EdgeChain g path → path.Nodup → (∀ x ∈ path, x ∈ visited) →
      qlGetBestPathAux g minBandwidth qtable target fuel state path visited
        = some p →
      p.head? = path.head? ∧ p.getLast? = some target ∧ EdgeChain g p
        ∧ p.Nodup := by
  intro fuel
  induction fuel with
  | zero =>
    intro state path visited p _ _ _ _ _ h
    simp [qlGetBestPathAux] at h
  | succ fuel ih =>
    intro state path visited p hne hlast hchain hnodup hsub h
    rw [qlGetBestPathAux] at h
    by_cases hend : state = target
    · rw [if_pos hend] at h
      simp only [Option.some.injEq] at h
      subst h
      exact ⟨rfl, hend ▸ hlast, hchain, hnodup⟩
    · rw [if_neg hend] at h
      cases hmax : argmaxKey (qtable state)
        ((getValidNeighbors g minBandwidth state).filter
          (fun n => !visited.contains n)) with
      | none =>
        simp only [hmax] at h
        cases h
      | some next =>
        simp only [hmax] at h
        by_cases hguard : g.nodes.length < (path ++ [next]).length
        · rw [if_pos hguard] at h; simp at h
        · rw [if_neg hguard] at h
          have hmemfilter := argmaxKey_mem _ _ _ hmax
          have hmemvalid : next ∈ getValidNeighbors g minBandwidth state :=
            List.mem_of_mem_filter hmemfilter
          have hmemnb : next ∈ neighborsOf g state :=
            List.mem_of_mem_filter hmemvalid
          have hnotvis : next ∉ visited := by
            have := List.of_mem_filter hmemfilter
            simp only [Bool.not_eq_true'] at this
            intro hmem
            have hc := contains_true_of_mem hmem
            rw [this] at hc
            cases hc
          have hedge : hasEdge g state next = true :=
            neighborsOf_hasEdge g state next hmemnb
          have hnotpath : next ∉ path := fun hmem => hnotvis (hsub next hmem)
          have hlast2 : (path ++ [next]).getLast? = some next :=
            List.getLast?_concat path
          have hchain2 : EdgeChain g (path ++ [next]) := by
            unfold EdgeChain
            rw [List.chain'_append]
            refine ⟨hchain, List.chain'_singleton _, ?_⟩
            intro x hx y hy
            simp only [List.head?_cons, Option.mem_def, Option.some.injEq] at hy
            rw [hlast] at hx
            simp only [Option.mem_def, Option.some.injEq] at hx
            subst hx; subst hy
            exact hedge
          have hnodup2 : (path ++ [next]).Nodup := by
            rw [List.nodup_append]
            exact ⟨hnodup, List.nodup_singleton _,
              fun x hx hx2 => by
                simp only [List.mem_singleton] at hx2
                exact hnotpath (hx2 ▸ hx)⟩
          have hsub2 : ∀ x ∈ path ++ [next], x ∈ next :: visited := by
            intro x hx
            rcases List.mem_append.mp hx with hx | hx
            · exact List.mem_cons_of_mem _ (hsub x hx)
            · simp only [List.mem_singleton] at hx
              exact hx ▸ List.mem_cons_self _ _
          have hrec := ih next (path ++ [next]) (next :: visited) p
            (by simp) hlast2 hchain2 hnodup2 hsub2 h
          refine ⟨?_, hrec.2.1, hrec.2.2.1, hrec.2.2.2⟩
          rw [hrec.1]
          cases path with
          | nil => exact absurd rfl hne
          | cons a l => simp

theorem generateRandomPathAux_sound {K : Type} [LinearOrderedField K]
    (g : NetGraph K) (dst : Nat) :
    ∀ (fuel current : Nat) (path : List Nat) (r : RandO) (p : List Nat)
      (r2 : RandO),
      path ≠ [] → path.getLast? = some current → EdgeChain g path →
      generateRandomPathAux g dst fuel current path r = (some p, r2) →
      p.head? = path.head? ∧ p.getLast? = some dst ∧ EdgeChain g p := by
  intro fuel
  induction fuel with
  | zero =>
    intro current path r p r2 _ _ _ h
    simp [generateRandomPathAux] at h
  | succ fuel ih =>
    intro current path r p r2 hne hlast hchain h
    rw [generateRandomPathAux] at h
    by_cases hend : current = dst
    · rw [if_pos hend] at h
      simp only [Prod.mk.injEq, Option.some.injEq] at h
      obtain ⟨rfl, -⟩ := h
      exact ⟨rfl, hend ▸ hlast, hchain⟩
    · rw [if_neg hend] at h
      by_cases hmem : g.nodes.contains current
      · simp only [hmem, Bool.not_true, if_false, Bool.false_eq_true] at h
        by_cases hemp : ((neighborsOf g current).filter
            (fun n => !path.contains n)).isEmpty
        · simp only [hemp, if_true] at h
          cases h
        · simp only [hemp, if_false, Bool.false_eq_true, randIndex,
            RandO.next] at h
          have hlen : 0 < ((neighborsOf g current).filter
              (fun n => !path.contains n)).length :=
            List.length_pos.mpr (by
              intro hnil
              rw [hnil] at hemp
              simp at hemp)
          have hidx : r.stream r.pos % ((neighborsOf g current).filter
                (fun n => !path.contains n)).length
              < ((neighborsOf g current).filter
                (fun n => !path.contains n)).length :=
            Nat.mod_lt _ hlen
          generalize hnext : ((neighborsOf g current).filter
              (fun n => !path.contains n)).getD
            (r.stream r.pos % ((neighborsOf g current).filter
              (fun n => !path.contains n)).length) 0 = next at h
          have hmemf : next ∈ (neighborsOf g current).filter
              (fun n => !path.contains n) := by
            rw [← hnext, List.getD_eq_getElem _ _ hidx]
            exact List.getElem_mem _
          have hedge : hasEdge g current next = true :=
            neighborsOf_hasEdge g current next (List.mem_of_mem_filter hmemf)
          have hchain2 : EdgeChain g (path ++ [next]) := by
            unfold EdgeChain
            rw [List.chain'_append]
            refine ⟨hchain, List.chain'_singleton _, ?_⟩
            intro x hx y hy
            simp only [List.head?_cons, Option.mem_def, Option.some.injEq] at hy
            rw [hlast] at hx
            simp only [Option.mem_def, Option.some.injEq] at hx
            subst hx; subst hy
            exact hedge
          have hrec := ih next (path ++ [next]) _ p r2 (by simp)
            (List.getLast?_concat path) hchain2 h
          refine ⟨?_, hrec.2.1, hrec.2.2⟩
          rw [hrec.1, List.head?_append_of_ne_nil _ hne]
      · simp only [hmem, Bool.not_false, if_true] at h
        cases h

theorem getLast?_drop_of_ne_nil {α : Type} :
    ∀ (l : List α) (n : Nat), l.drop n ≠ [] →
      (l.drop n).getLast? = l.getLast? := by
  intro l
  induction l with
  | nil => intro n h; simp at h
  | cons a l ih =>
    intro n h
    cases n with
    | zero => rfl
    | succ n =>
      rw [List.drop_succ_cons] at h ⊢
      rw [ih n h]
      have hl : l ≠ [] := by
        intro hnil
        rw [hnil] at h
        simp at h
      rw [List.getLast?_cons]
      cases hg : l.getLast? with
      | none =>
        rw [List.getLast?_eq_none_iff] at hg
        exact absurd hg hl
      | some b => rfl

theorem crossoverChild_inv {K : Type} (g : NetGraph K) (src dst : Nat)
    (p1 p2 : List Nat) (cut : Nat)
    (h1 : GAInvS g src dst p1) (h2 : GAInvS g src dst p2)
    (hc1 : cut ∈ p1) (hc2 : cut ∈ p2) :
    GAInvS g src dst
      (p1.take (p1.indexOf cut + 1) ++ p2.drop (p2.indexOf cut + 1)) := by
  obtain ⟨h1h, h1l, h1c⟩ := h1
  obtain ⟨h2h, h2l, h2c⟩ := h2
  have hi1 : p1.indexOf cut < p1.length := List.indexOf_lt_length.mpr hc1
  have hi2 : p2.indexOf cut < p2.length := List.indexOf_lt_length.mpr hc2
  have hget1 : p1[p1.indexOf cut] = cut := List.getElem_indexOf hi1
  have hget2 : p2[p2.indexOf cut] = cut := List.getElem_indexOf hi2
  have htakene : p1.take (p1.indexOf cut + 1) ≠ [] := by
    intro hnil
    have hlen := congrArg List.length hnil
    rw [List.length_take] at hlen
    simp only [List.length_nil] at hlen
    omega
  have htakelast : (p1.take (p1.indexOf cut + 1)).getLast? = some cut := by
    rw [List.getLast?_take, if_neg (Nat.succ_ne_zero _)]
    have hsome : p1[p1.indexOf cut + 1 - 1]? = some cut := by
      rw [Nat.add_sub_cancel, List.getElem?_eq_getElem hi1, hget1]
    rw [hsome]
    rfl
  refine ⟨?_, ?_, ?_⟩
  · rw [List.head?_append_of_ne_nil _ htakene]
    cases p1 with
    | nil => cases hc1
    | cons a t => simpa using h1h
  · by_cases hdrop : p2.drop (p2.indexOf cut + 1) = []
    · rw [hdrop, List.append_nil, htakelast]
      have hge : p2.length ≤ p2.indexOf cut + 1 := by
        by_contra hlt2
        push_neg at hlt2
        refine absurd hdrop ?_
        intro hnil
        have hlen := congrArg List.length hnil
        rw [List.length_drop] at hlen
        simp at hlen
        omega
      have hlen0 : 0 < p2.length := List.length_pos.mpr (List.ne_nil_of_mem hc2)
      have hidx : p2.indexOf cut = p2.length - 1 := by omega
      have hlastval : p2[p2.length - 1]? = some dst := by
        have hh := (List.getLast?_eq_getElem? p2).symm.trans h2l
        exact hh
      rw [List.getElem?_eq_getElem (by omega)] at hlastval
      injection hlastval with hlastval
      have hcd : cut = dst := by
        rw [← hget2]
        simp only [hidx]
        exact hlastval
      rw [hcd]
    · rw [List.getLast?_append_of_ne_nil _ hdrop,
        getLast?_drop_of_ne_nil _ _ hdrop, h2l]
  · unfold EdgeChain at h1c h2c ⊢
    rw [List.chain'_append]
    refine ⟨h1c.take _, h2c.drop _, ?_⟩
    intro x hx y hy
    rw [htakelast] at hx
    simp only [Option.mem_def, Option.some.injEq] at hx
    subst hx
    rw [List.head?_drop] at hy
    simp only [Option.mem_def] at hy
    have hlt : p2.indexOf cut + 1 < p2.length := by
      by_contra hge
      push_neg at hge
      rw [List.getElem?_eq_none hge] at hy
      cases hy
    have hyval : y = p2[p2.indexOf cut + 1] := by
      rw [List.getElem?_eq_getElem hlt] at hy
      injection hy with hy
      exact hy.symm
    have hstep := List.chain'_iff_get.mp h2c (p2.indexOf cut) (by omega)
    rw [List.get_eq_getElem, List.get_eq_getElem] at hstep
    rw [hyval]
    rw [hget2] at hstep
    exact hstep

theorem gaCrossover_inv {K : Type} (g : NetGraph K) (src dst : Nat)
    (p1 p2 : List Nat) (r : RandO)
    (h1 : GAInvS g src dst p1) (h2 : GAInvS g src dst p2) :
    GAInvS g src dst (gaCrossover p1 p2 r).1.1
      ∧ GAInvS g src dst (gaCrossover p1 p2 r).1.2 := by
  unfold gaCrossover
  by_cases hemp : (if 2 < (p1.filter (fun n => p2.contains n)).length
      then ((p1.filter (fun n => p2.contains n)).drop 1).dropLast
      else []).isEmpty
  · simp only [hemp, if_true]
    exact ⟨h1, h2⟩
  · simp only [hemp, if_false, Bool.false_eq_true]
    have hcand : ∀ c ∈ (if 2 < (p1.filter (fun n => p2.contains n)).length
        then ((p1.filter (fun n => p2.contains n)).drop 1).dropLast
        else []), c ∈ p1 ∧ c ∈ p2 := by
      intro c hc
      by_cases hlen : 2 < (p1.filter (fun n => p2.contains n)).length
      · rw [if_pos hlen] at hc
        have hmemf : c ∈ p1.filter (fun n => p2.contains n) :=
          List.mem_of_mem_drop (List.mem_of_mem_dropLast hc)
        refine ⟨List.mem_of_mem_filter hmemf, ?_⟩
        have := List.of_mem_filter hmemf
        exact List.elem_iff.mp this
      · rw [if_neg hlen] at hc
        cases hc
    set cands := (if 2 < (p1.filter (fun n => p2.contains n)).length
      then ((p1.filter (fun n => p2.contains n)).drop 1).dropLast
      else []) with hcands
    have hlen : 0 < cands.length :=
      List.length_pos.mpr (by
        intro hnil
        rw [hnil] at hemp
        simp at hemp)
    have hmemc : cands.getD ((randIndex r cands.length).1) 0 ∈ cands := by
      have hidx : (randIndex r cands.length).1 < cands.length := by
        simp only [randIndex, RandO.next]
        exact Nat.mod_lt _ hlen
      rw [List.getD_eq_getElem _ _ hidx]
      exact List.getElem_mem _
    obtain ⟨hcp1, hcp2⟩ := hcand _ hmemc
    constructor
    · exact crossoverChild_inv g src dst p1 p2 _ h1 h2 hcp1 hcp2
    · exact crossoverChild_inv g src dst p2 p1 _ h2 h1 hcp2 hcp1

theorem gaMutation_inv {K : Type} [LinearOrderedField K] (g : NetGraph K)
    (src dst : Nat) (path : List Nat) (mutationRate : K) (r : RandO)
    (h : GAInvS g src dst path) :
    GAInvS g src dst (gaMutation g path dst mutationRate r).1 := by
  obtain ⟨hh, hl, hc⟩ := h
  unfold gaMutation
  rcases hcf : coinFlip r with ⟨coin, r1⟩
  simp only []
  by_cases hm : (if mutationRate < 0 then false
      else if 1 ≤ mutationRate then true else coin) = true
  · rw [hm]
    simp only [Bool.not_true, if_false, Bool.false_eq_true]
    by_cases hlen3 : path.length < 3
    · rw [if_pos hlen3]
      exact ⟨hh, hl, hc⟩
    · rw [if_neg hlen3]
      push_neg at hlen3
      have hn2 : 0 < path.length - 2 := by omega
      rcases hri : randIndex r1 (path.length - 2) with ⟨i0, r2⟩
      simp only []
      have hi0lt : i0 < path.length - 2 := by
        have : (randIndex r1 (path.length - 2)).1 = i0 := by rw [hri]
        rw [← this]
        simp only [randIndex, RandO.next]
        exact Nat.mod_lt _ hn2
      have hcilt : 1 + i0 < path.length := by omega
      have hcut : path.getD (1 + i0) 0 = path[1 + i0] :=
        List.getD_eq_getElem _ _ hcilt
      cases htail : generateRandomPath g (path.getD (1 + i0) 0) dst r2 with
      | mk tl r3 =>
        cases tl with
        | none =>
          simp only [htail]
          exact ⟨hh, hl, hc⟩
        | some tail =>
          simp only [htail]
          have hsound := generateRandomPathAux_sound g dst
            (g.nodes.length + 2) (path.getD (1 + i0) 0)
            [path.getD (1 + i0) 0] _ tail r3 (by simp) (by simp)
            (List.chain'_singleton _) htail
          have hth : tail.head? = some (path.getD (1 + i0) 0) := by
            rw [hsound.1]; rfl
          have htne : tail ≠ [] := by
            intro hnil
            rw [hnil] at hth
            cases hth
          have hdlt : (path.take (1 + i0 + 1)).dropLast = path.take (1 + i0) := by
            rw [List.dropLast_take (by omega)]
            simp
          rw [hdlt]
          have htkne : path.take (1 + i0) ≠ [] := by
            intro hnil
            have hlen := congrArg List.length hnil
            rw [List.length_take] at hlen
            simp only [List.length_nil] at hlen
            omega
          refine ⟨?_, ?_, ?_⟩
          · rw [List.head?_append_of_ne_nil _ htkne]
            have h1i : 1 + i0 = i0 + 1 := by omega
            rw [h1i]
            cases path with
            | nil => cases hh
            | cons a t => simpa using hh
          · rw [List.getLast?_append_of_ne_nil _ htne]
            exact hsound.2.1
          · unfold EdgeChain at hc ⊢
            rw [List.chain'_append]
            refine ⟨hc.take _, hsound.2.2, ?_⟩
            intro x hx y hy
            have hii : 1 + i0 - 1 = i0 := by omega
            rw [List.getLast?_take, if_neg (by omega : ¬ 1 + i0 = 0), hii,
              List.getElem?_eq_getElem (by omega : i0 < path.length),
              show (some path[i0]).or path.getLast? = some path[i0] from rfl]
              at hx
            simp only [Option.mem_def, Option.some.injEq] at hx
            subst hx
            rw [hth] at hy
            simp only [Option.mem_def, Option.some.injEq] at hy
            subst hy
            rw [hcut]
            have hstep := List.chain'_iff_get.mp hc i0 (by omega)
            rw [List.get_eq_getElem, List.get_eq_getElem] at hstep
            have hidxeq : i0 + 1 = 1 + i0 := by omega
            simp only [hidxeq] at hstep
            exact hstep
  · rw [Bool.not_eq_true] at hm
    rw [hm]
    simp only [Bool.not_false, if_true]
    exact ⟨hh, hl, hc⟩

theorem insertSorted_mem {α : Type} (lt : α → α → Bool) (x : α) :
    ∀ (l : List α) (y : α), y ∈ insertSorted lt x l → y = x ∨ y ∈ l := by
  intro l
  induction l with
  | nil =>
    intro y hy
    simp [insertSorted] at hy
    exact Or.inl hy
  | cons a l ih =>
    intro y hy
    unfold insertSorted at hy
    by_cases hlt : lt a x = true
    · rw [if_pos hlt] at hy
      rcases List.mem_cons.mp hy with rfl | hy
      · exact Or.inr (List.mem_cons_self _ _)
      · rcases ih y hy with h | h
        · exact Or.inl h
        · exact Or.inr (List.mem_cons_of_mem _ h)
    · rw [if_neg hlt] at hy
      rcases List.mem_cons.mp hy with rfl | hy
      · exact Or.inl rfl
      · exact Or.inr hy

theorem stableSortBy_mem {α : Type} (lt : α → α → Bool) :
    ∀ (l : List α) (y : α), y ∈ stableSortBy lt l → y ∈ l := by
  intro l
  induction l with
  | nil => intro y hy; simp [stableSortBy] at hy
  | cons a l ih =>
    intro y hy
    unfold stableSortBy at hy
    rw [List.foldr_cons] at hy
    rcases insertSorted_mem lt a _ y hy with rfl | hy
    · exact List.mem_cons_self _ _
    · exact List.mem_cons_of_mem _ (ih y hy)

theorem gaSelection_mem {K : Type} [LinearOrderedField K] (g : NetGraph K)
    (rlog : K → K) (weights : Weights K) (population : List (List Nat))
    (numParents : Nat) (parents : List (List Nat))
    (h : gaSelection g rlog weights population numParents = .ok parents) :
    ∀ p ∈ parents, p ∈ population := by
  unfold gaSelection at h
  by_cases hlen : (stableSortBy (fun a b => costLT a.2 b.2)
      (population.map (fun p => (p, gaCost g rlog weights p)))).length
      < numParents
  · rw [if_pos hlen] at h
    cases h
  · rw [if_neg hlen] at h
    injection h with h
    subst h
    intro p hp
    rw [List.mem_map] at hp
    obtain ⟨pair, hpair, hfst⟩ := hp
    have hsorted : pair ∈ stableSortBy (fun a b => costLT a.2 b.2)
        (population.map (fun q => (q, gaCost g rlog weights q))) :=
      List.mem_of_mem_take hpair
    have hmem := stableSortBy_mem _ _ _ hsorted
    rw [List.mem_map] at hmem
    obtain ⟨q, hq, hpq⟩ := hmem
    rw [← hfst, ← hpq]
    exact hq

theorem gaBreedAux_inv {K : Type} [LinearOrderedField K] (g : NetGraph K)
    (src dst : Nat) (mutationRate : K) (popSize : Nat)
    (parents : List (List Nat))
    (hpar : ∀ p ∈ parents, GAInvS g src dst p) (hne : parents ≠ []) :
    ∀ (fuel : Nat) (newPop : List (List Nat)) (r : RandO),
      (∀ p ∈ newPop, GAInvS g src dst p) →
      ∀ q ∈ (gaBreedAux g dst mutationRate popSize parents fuel newPop r).1,
        GAInvS g src dst q := by
  have hlen : 0 < parents.length := List.length_pos.mpr hne
  intro fuel
  induction fuel with
  | zero =>
    intro newPop r hnp q hq
    exact hnp q hq
  | succ fuel ih =>
    intro newPop r hnp q hq
    rw [gaBreedAux] at hq
    by_cases hfull : popSize ≤ newPop.length
    · rw [if_pos hfull] at hq
      exact hnp q hq
    · rw [if_neg hfull] at hq
      rcases hr1 : randIndex r parents.length with ⟨i1, r1⟩
      rw [hr1] at hq
      simp only [] at hq
      rcases hr2 : randIndex r1 parents.length with ⟨i2, r2⟩
      rw [hr2] at hq
      simp only [] at hq
      rcases hr3 : gaCrossover (parents.getD i1 []) (parents.getD i2 []) r2
        with ⟨cs, r3⟩
      rw [hr3] at hq
      simp only [] at hq
      rcases hr4 : gaMutation g cs.1 dst mutationRate r3 with ⟨c1, r4⟩
      rw [hr4] at hq
      simp only [] at hq
      rcases hr5 : gaMutation g cs.2 dst mutationRate r4 with ⟨c2, r5⟩
      rw [hr5] at hq
      simp only [] at hq
      have hp1 : parents.getD i1 [] ∈ parents := by
        have hi : i1 < parents.length := by
          have : (randIndex r parents.length).1 = i1 := by rw [hr1]
          rw [← this]
          simp only [randIndex, RandO.next]
          exact Nat.mod_lt _ hlen
        rw [List.getD_eq_getElem _ _ hi]
        exact List.getElem_mem _
      have hp2 : parents.getD i2 [] ∈ parents := by
        have hi : i2 < parents.length := by
          have : (randIndex r1 parents.length).1 = i2 := by rw [hr2]
          rw [← this]
          simp only [randIndex, RandO.next]
          exact Nat.mod_lt _ hlen
        rw [List.getD_eq_getElem _ _ hi]
        exact List.getElem_mem _
      have hcross := gaCrossover_inv g src dst (parents.getD i1 [])
        (parents.getD i2 []) r2 (hpar _ hp1) (hpar _ hp2)
      rw [hr3] at hcross
      have hc1 : GAInvS g src dst c1 := by
        have := gaMutation_inv g src dst cs.1 mutationRate r3 hcross.1
        rw [hr4] at this
        exact this
      have hc2 : GAInvS g src dst c2 := by
        have := gaMutation_inv g src dst cs.2 mutationRate r4 hcross.2
        rw [hr5] at this
        exact this
      refine ih _ _ ?_ q hq
      intro p hp
      by_cases hsplit : (newPop ++ [c1]).length < popSize
      · rw [if_pos hsplit] at hp
        rcases List.mem_append.mp hp with hp | hp
        · rcases List.mem_append.mp hp with hp | hp
          · exact hnp p hp
          · rw [List.mem_singleton] at hp
            exact hp ▸ hc1
        · rw [List.mem_singleton] at hp
          exact hp ▸ hc2
      · rw [if_neg hsplit] at hp
        rcases List.mem_append.mp hp with hp | hp
        · exact hnp p hp
        · rw [List.mem_singleton] at hp
          exact hp ▸ hc1

theorem generateRandomPath_inv {K : Type} [LinearOrderedField K]
    (g : NetGraph K) (src dst : Nat) (r : RandO) (p : List Nat) (r2 : RandO)
    (h : generateRandomPath g src dst r = (some p, r2)) :
    GAInvS g src dst p := by
  unfold generateRandomPath at h
  have hs := generateRandomPathAux_sound g dst (g.nodes.length + 2) src [src]
    r p r2 (by simp) rfl (List.chain'_singleton _) h
  exact ⟨by rw [hs.1]; rfl, hs.2.1, hs.2.2⟩

theorem createPopAux_inv {K : Type} [LinearOrderedField K] (g : NetGraph K)
    (src dst popSize : Nat) :
    ∀ (fuel : Nat) (pop : List (List Nat)) (r : RandO),
      (∀ p ∈ pop, GAInvS g src dst p) →
      ∀ q ∈ (createPopAux g src dst popSize fuel pop r).1,
        GAInvS g src dst q := by
  intro fuel
  induction fuel with
  | zero =>
    intro pop r hpop q hq
    exact hpop q hq
  | succ fuel ih =>
    intro pop r hpop q hq
    rw [createPopAux] at hq
    by_cases hfull : popSize ≤ pop.length
    · rw [if_pos hfull] at hq
      exact hpop q hq
    · rw [if_neg hfull] at hq
      rcases hgen : generateRandomPath g src dst r with ⟨po, r1⟩
      simp only [hgen] at hq
      cases po with
      | none =>
        simp only [] at hq
        exact ih pop r1 hpop q hq
      | some pnew =>
        simp only [] at hq
        refine ih (pop ++ [pnew]) r1 ?_ q hq
        intro p hp
        rcases List.mem_append.mp hp with hp | hp
        · exact hpop p hp
        · rw [List.mem_singleton] at hp
          subst hp
          exact generateRandomPath_inv g src dst r p r1 hgen

theorem gaGenLoop_inv {K : Type} [LinearOrderedField K] (g : NetGraph K)
    (rlog : K → K) (src dst : Nat) (weights : Weights K) (popSize : Nat)
    (mutationRate : K) :
    ∀ (gens : Nat) (population : List (List Nat)) (best : Option (List Nat))
      (bestCost : Option K) (r : RandO) (res : Option (List Nat))
      (bc : Option K),
      (∀ p ∈ population, GAInvS g src dst p) →
      (∀ p, best = some p → GAInvS g src dst p) →
      gaGenLoop g rlog dst weights popSize mutationRate gens population best
        bestCost r = .ok (res, bc) →
      ∀ p, res = some p → GAInvS g src dst p := by
  intro gens
  induction gens with
  | zero =>
    intro population best bestCost r res bc _ hbest h
    rw [gaGenLoop] at h
    injection h with h
    injection h with h1 h2
    subst h1
    exact hbest
  | succ gens ih =>
    intro population best bestCost r res bc hpop hbest h
    rw [gaGenLoop] at h
    simp only [Bind.bind] at h
    rcases hsel : gaSelection g rlog weights population (popSize / 2)
      with e | parents
    · rw [hsel] at h
      simp only [Except.bind] at h
      cases h
    · rw [hsel] at h
      simp only [Except.bind] at h
      by_cases hemp : parents.isEmpty = true
      · rw [if_pos hemp] at h
        injection h with h
        injection h with h1 h2
        subst h1
        exact hbest
      · rw [if_neg hemp] at h
        rcases hc : gaCost g rlog weights (parents.headD [])
          with _ | currentCost
        · simp only [hc] at h
          exact ih population best bestCost r res bc hpop hbest h
        · simp only [hc] at h
          have hparents := gaSelection_mem g rlog weights population
            (popSize / 2) parents hsel
          have hparInv : ∀ p ∈ parents, GAInvS g src dst p :=
            fun p hp => hpop p (hparents p hp)
          have hne : parents ≠ [] := fun hnil => hemp (by rw [hnil]; rfl)
          have hcb : GAInvS g src dst (parents.headD []) := by
            have hm : parents.headD [] ∈ parents := by
              cases parents with
              | nil => exact absurd rfl hne
              | cons a as => exact List.mem_cons_self a as
            exact hparInv _ hm
          split at h
          · simp only [] at h
            rcases hbr : gaBreedAux g dst mutationRate popSize parents
              (popSize + 1) [] r with ⟨newPop, r1⟩
            simp only [hbr] at h
            have hnp : ∀ p ∈ newPop, GAInvS g src dst p := fun p hp =>
              gaBreedAux_inv g src dst mutationRate popSize parents hparInv
                hne (popSize + 1) [] r
                (fun q hq => absurd hq (List.not_mem_nil q)) p
                (by rw [hbr]; exact hp)
            refine ih newPop (some (parents.headD [])) (some currentCost) r1
              res bc hnp ?_ h
            intro p hp
            injection hp with hp
            exact hp ▸ hcb
          · simp only [] at h
            rcases hbr : gaBreedAux g dst mutationRate popSize parents
              (popSize + 1) [] r with ⟨newPop, r1⟩
            simp only [hbr] at h
            have hnp : ∀ p ∈ newPop, GAInvS g src dst p := fun p hp =>
              gaBreedAux_inv g src dst mutationRate popSize parents hparInv
                hne (popSize + 1) [] r
                (fun q hq => absurd hq (List.not_mem_nil q)) p
                (by rw [hbr]; exact hp)
            exact ih newPop best bestCost r1 res bc hnp hbest h

theorem runGeneticAlgorithm_inv {K : Type} [LinearOrderedField K]
    (g : NetGraph K) (rlog : K → K) (src dst popSize generations : Nat)
    (mutationRate : K) (weights : Weights K) (r : RandO)
    (res : Option (List Nat)) (bc : Option K)
    (h : runGeneticAlgorithm g rlog src dst popSize generations mutationRate
      weights r = .ok (res, bc)) :
    ∀ p, res = some p → GAInvS g src dst p := by
  rw [runGeneticAlgorithm] at h
  rcases hcp : createInitialPopulation g src dst popSize r
    with ⟨population, r1⟩
  simp only [hcp] at h
  refine gaGenLoop_inv g rlog src dst weights popSize mutationRate
    generations population none none r1 res bc ?_ ?_ h
  · intro p hp
    refine createPopAux_inv g src dst popSize (popSize * 10 + 1) [] r
      (fun q hq => absurd hq (List.not_mem_nil q)) p ?_
    have : createPopAux g src dst popSize (popSize * 10 + 1) [] r
        = (population, r1) := hcp
    rw [this]
    exact hp
  · intro p hp
    cases hp

set_option maxHeartbeats 1000000 in
theorem gaCxCostA : gaCost gaCxGraph (fun _ => 0) ⟨1, 0, 0⟩ [0, 1, 2, 3] = some 12 := by
  norm_num [gaCost, engineCompute, edgeFoldM, engineEdge, hasEdge, consecPairs,
    processingSumF, nodeRelF, weightedSum, Weights.normalizedE, defaultPenalty,
    engineEps, refBW, gaCxGraph, min_def, max_def, Bind.bind, Except.bind,
    pure, Except.pure]

set_option maxHeartbeats 1000000 in
theorem gaCxCostB : gaCost gaCxGraph (fun _ => 0) ⟨1, 0, 0⟩ [0, 2, 1, 3] = some 12 := by
  norm_num [gaCost, engineCompute, edgeFoldM, engineEdge, hasEdge, consecPairs,
    processingSumF, nodeRelF, weightedSum, Weights.normalizedE, defaultPenalty,
    engineEps, refBW, gaCxGraph, min_def, max_def, Bind.bind, Except.bind,
    pure, Except.pure]

set_option maxHeartbeats 1000000 in
theorem gaCxCostC : gaCost gaCxGraph (fun _ => 0) ⟨1, 0, 0⟩ [0, 1, 2, 1, 3] = some 4 := by
  norm_num [gaCost, engineCompute, edgeFoldM, engineEdge, hasEdge, consecPairs,
    processingSumF, nodeRelF, weightedSum, Weights.normalizedE, defaultPenalty,
    engineEps, refBW, gaCxGraph, min_def, max_def, Bind.bind, Except.bind,
    pure, Except.pure]

set_option maxHeartbeats 1000000 in
theorem gaCxCostD : gaCost gaCxGraph (fun _ => 0) ⟨1, 0, 0⟩ [0, 2, 3] = some 20 := by
  norm_num [gaCost, engineCompute, edgeFoldM, engineEdge, hasEdge, consecPairs,
    processingSumF, nodeRelF, weightedSum, Weights.normalizedE, defaultPenalty,
    engineEps, refBW, gaCxGraph, min_def, max_def, Bind.bind, Except.bind,
    pure, Except.pure]

set_option maxHeartbeats 1000000 in
theorem gaCxSel1 : gaSelection gaCxGraph (fun _ => 0) ⟨1, 0, 0⟩
    [[0,1,2,3],[0,2,1,3],[0,1,2,3],[0,2,1,3]] 2 = .ok [[0,1,2,3],[0,2,1,3]] := by
  norm_num [gaSelection, stableSortBy, insertSorted, costLT, gaCxCostA, gaCxCostB]

set_option maxHeartbeats 4000000 in
theorem gaCxBreed1 : gaBreedAux gaCxGraph 3 0 4 [[0,1,2,3],[0,2,1,3]] 5 [] ⟨gaCxStream, 12⟩
    = ([[0,1,2,1,3],[0,2,3],[0,1,2,1,3],[0,2,3]], ⟨gaCxStream, 22⟩) := by
  norm_num [gaBreedAux, gaCrossover, gaMutation, gaCxGraph, gaCxStream,
    neighborsOf, randIndex, coinFlip, RandO.next, List.indexOf, List.findIdx,
    List.findIdx.go, Nat.beq, cond, BEq.beq]

set_option maxHeartbeats 1000000 in
theorem gaCxSel2 : gaSelection gaCxGraph (fun _ => 0) ⟨1, 0, 0⟩
    [[0,1,2,1,3],[0,2,3],[0,1,2,1,3],[0,2,3]] 2 = .ok [[0,1,2,1,3],[0,1,2,1,3]] := by
  norm_num [gaSelection, stableSortBy, insertSorted, costLT, gaCxCostC, gaCxCostD]

set_option maxHeartbeats 4000000 in
theorem gaCxBreed2 : gaBreedAux gaCxGraph 3 0 4 [[0,1,2,1,3],[0,1,2,1,3]] 5 [] ⟨gaCxStream, 22⟩
    = ([[0,1,2,1,3],[0,1,2,1,3],[0,1,2,1,3],[0,1,2,1,3]], ⟨gaCxStream, 32⟩) := by
  norm_num [gaBreedAux, gaCrossover, gaMutation, gaCxGraph, gaCxStream,
    neighborsOf, randIndex, coinFlip, RandO.next, List.indexOf, List.findIdx,
    List.findIdx.go, Nat.beq, cond, BEq.beq]

set_option maxHeartbeats 1000000 in
theorem gaCxPop : createInitialPopulation gaCxGraph 0 3 4 ⟨gaCxStream, 0⟩
    = ([[0,1,2,3],[0,2,1,3],[0,1,2,3],[0,2,1,3]], ⟨gaCxStream, 12⟩) := by
  norm_num [createInitialPopulation, createPopAux, generateRandomPath,
    generateRandomPathAux, gaCxGraph, gaCxStream, neighborsOf, randIndex,
    RandO.next]

set_option maxHeartbeats 2000000 in
theorem gaCxRun :
    runGeneticAlgorithm gaCxGraph (fun _ => 0) 0 3 4 2 0 ⟨1, 0, 0⟩ ⟨gaCxStream, 0⟩
      = .ok (some [0, 1, 2, 1, 3], some 4) := by
  norm_num [runGeneticAlgorithm, gaCxPop, gaGenLoop, gaCxSel1, gaCxCostA, gaCxBreed1,
    gaCxSel2, gaCxCostC, gaCxBreed2, Bind.bind, Except.bind, pure, Except.pure]

/-- C3 counterexample.  On the four-node graph, `run_genetic_algorithm`
(population 4, two generations, mutation rate 0) returns the best path
`[0, 1, 2, 1, 3]`, which repeats node `1`: `crossover` cuts the parents
`[0, 1, 2, 3]` and `[0, 2, 1, 3]` at the common node `2` and concatenates
prefix and opposite suffix without removing duplicates, and the child
scores better than both parents, so it is selected and reported. -/
theorem ga_returns_repeated_node :
    runGeneticAlgorithm gaCxGraph (fun _ => 0) 0 3 4 2 0 ⟨1, 0, 0⟩
      ⟨gaCxStream, 0⟩ = .ok (some [0, 1, 2, 1, 3], some 4)
    ∧ ¬ ([0, 1, 2, 1, 3].Nodup) :=
  ⟨gaCxRun, by decide⟩

/-- C3 (amended).  Path integrity: every path returned by `ant_walk` and
every path returned by `QLearningAgent.get_best_path` starts at the source,
ends at the destination, walks along edges of the graph and repeats no
node; for `run_genetic_algorithm` only the weaker guarantee holds: a
returned best path starts at the source, ends at the destination and walks
along edges of the graph, but may repeat nodes (crossover can emit
non-simple children, see `ga_returns_repeated_node`). -/
theorem path_integrity_amended {K : Type} [LinearOrderedField K]
    (g : NetGraph K) (heuristic : NetGraph K → Nat → Nat → K)
    (alpha beta : K) (kpow : K → K → K) (demandBw minBandwidth : K)
    (qtable : Nat → Nat → K) (rlog : K → K) (weights : Weights K)
    (mutationRate : K)
    (start endNode source target src dst popSize generations : Nat)
    (ra rg : RandO) :
    (∀ (p : List Nat) (r2 : RandO),
        antWalk g start endNode demandBw heuristic alpha beta kpow ra
          = (some p, r2) →
        p.head? = some start ∧ p.getLast? = some endNode ∧ EdgeChain g p
          ∧ p.Nodup) ∧
    (∀ p : List Nat,
        qlGetBestPath g minBandwidth qtable source target = some p →
        p.head? = some source ∧ p.getLast? = some target ∧ EdgeChain g p
          ∧ p.Nodup) ∧
    (∀ (res : Option (List Nat)) (bc : Option K) (p : List Nat),
        runGeneticAlgorithm g rlog src dst popSize generations mutationRate
          weights rg = .ok (res, bc) → res = some p →
        p.head? = some src ∧ p.getLast? = some dst ∧ EdgeChain g p) := by
  refine ⟨?_, ?_, ?_⟩
  · intro p r2 h
    unfold antWalk at h
    have hs := antWalkAux_sound g endNode demandBw heuristic alpha beta kpow
      (g.nodes.length + 2) start [start] [start] ra p r2 (by simp) rfl
      (List.chain'_singleton _) (List.nodup_singleton _) (fun x hx => hx) h
    exact ⟨by rw [hs.1]; rfl, hs.2.1, hs.2.2.1, hs.2.2.2⟩
  · intro p h
    unfold qlGetBestPath at h
    have hs := qlGetBestPathAux_sound g minBandwidth qtable target
      (g.nodes.length + 2) source [source] [source] p (by simp) rfl
      (List.chain'_singleton _) (List.nodup_singleton _) (fun x hx => hx) h
    exact ⟨by rw [hs.1]; rfl, hs.2.1, hs.2.2.1, hs.2.2.2⟩
  · intro res bc p h hres
    obtain ⟨h1, h2, h3⟩ := runGeneticAlgorithm_inv g rlog src dst popSize
      generations mutationRate weights rg res bc h p hres
    exact ⟨h1, h2, h3⟩

/-- Concrete instance of `path_integrity_amended` at the counterexample
graph: the one-node ACO and Q-Learning walks for source = destination = 0,
and the genetic run returning `[0, 1, 2, 1, 3]`. -/
theorem path_integrity_amended_witness :
    ([0].head? = some 0 ∧ [0].getLast? = some 0 ∧ EdgeChain gaCxGraph [0]
      ∧ [0].Nodup) ∧
    ([0].head? = some 0 ∧ [0].getLast? = some 0 ∧ EdgeChain gaCxGraph [0]
      ∧ [0].Nodup) ∧
    ([0, 1, 2, 1, 3].head? = some 0 ∧ [0, 1, 2, 1, 3].getLast? = some 3
      ∧ EdgeChain gaCxGraph [0, 1, 2, 1, 3]) := by
  obtain ⟨h1, h2, h3⟩ := path_integrity_amended gaCxGraph (fun _ _ _ => 1)
    1 1 (fun _ _ => 1) 0 0 (fun _ _ => 0) (fun _ => 0) ⟨1, 0, 0⟩ 0
    0 0 0 0 0 3 4 2 ⟨gaCxStream, 0⟩ ⟨gaCxStream, 0⟩
  exact ⟨h1 [0] ⟨gaCxStream, 0⟩ rfl, h2 [0] rfl,
    h3 (some [0, 1, 2, 1, 3]) (some 4) [0, 1, 2, 1, 3] gaCxRun rfl⟩

end ClaimC3

section ClaimC2

theorem mem_of_contains_true {α : Type} [BEq α] [LawfulBEq α] {l : List α}
    {a : α} (h : l.contains a = true) : a ∈ l :=
  List.elem_iff.mp h

theorem simplePathsAux_sound {K : Type} (g : NetGraph K) (t : Nat) :
    ∀ (fuel : Nat) (visited : List Nat) (c : Nat) (p : List Nat),
      c ∉ visited →
      p ∈ simplePathsAux g fuel visited c t →
      p.head? = some c ∧ p.getLast? = some t ∧ EdgeChain g p ∧ p.Nodup
        ∧ ∀ x ∈ p, x ∉ visited := by
  intro fuel
  induction fuel with
  | zero =>
    intro visited c p _ hp
    simp [simplePathsAux] at hp
  | succ fuel ih =>
    intro visited c p hc hp
    rw [simplePathsAux] at hp
    by_cases hct : c = t
    · rw [if_pos hct] at hp
      rw [List.mem_singleton] at hp
      subst hp
      subst hct
      refine ⟨rfl, rfl, List.chain'_singleton _, List.nodup_singleton _, ?_⟩
      intro x hx
      rw [List.mem_singleton] at hx
      subst hx
      exact hc
    · rw [if_neg hct] at hp
      rw [List.mem_flatMap] at hp
      obtain ⟨n, hn, hp⟩ := hp
      rw [List.mem_map] at hp
      obtain ⟨q, hq, rfl⟩ := hp
      have hnf := List.mem_filter.mp hn
      have hnnb : n ∈ neighborsOf g c := hnf.1
      have hnv : n ∉ c :: visited := by
        intro hmem
        have hcontains := contains_true_of_mem hmem
        rw [hcontains] at hnf
        simp at hnf
      have hrec := ih (c :: visited) n q hnv hq
      obtain ⟨hhead, hlast, hchain, hnodup, hinv⟩ := hrec
      have hqne : q ≠ [] := by
        intro hnil
        rw [hnil] at hhead
        cases hhead
      refine ⟨rfl, ?_, ?_, ?_, ?_⟩
      · cases q with
        | nil => exact absurd rfl hqne
        | cons b bs =>
          rw [List.getLast?_cons_cons]
          exact hlast
      · rw [EdgeChain, List.chain'_cons']
        refine ⟨?_, hchain⟩
        intro y hy
        rw [hhead] at hy
        rw [Option.mem_def, Option.some.injEq] at hy
        rw [← hy]
        exact neighborsOf_hasEdge g c n hnnb
      · rw [List.nodup_cons]
        refine ⟨?_, hnodup⟩
        intro hcq
        exact hinv c hcq (List.mem_cons_self c visited)
      · intro x hx
        rcases List.mem_cons.mp hx with hx | hx
        · subst hx
          exact hc
        · intro hxv
          exact hinv x hx (List.mem_cons_of_mem c hxv)

theorem simplePaths_sound {K : Type} (g : NetGraph K) (s t : Nat)
    (p : List Nat) (hp : p ∈ simplePaths g s t) : IsSimplePath g s t p := by
  have h := simplePathsAux_sound g t (g.nodes.length + 1) [] s p
    (List.not_mem_nil s) hp
  exact ⟨h.1, h.2.1, h.2.2.1, h.2.2.2.1⟩

theorem foldl_min_mem {K : Type} [LinearOrderedField K] {α : Type}
    (f : α → K) :
    ∀ (l : List α) (a : α),
      l.foldl (fun best q => if f q < f best then q else best) a ∈ a :: l := by
  intro l
  induction l with
  | nil =>
    intro a
    rw [List.foldl_nil]
    exact List.mem_singleton.mpr rfl
  | cons b bs ih =>
    intro a
    rw [List.foldl_cons]
    by_cases h : f b < f a
    · rw [if_pos h]
      exact List.mem_cons_of_mem a (ih b)
    · rw [if_neg h]
      rcases List.mem_cons.mp (ih a) with h1 | h1
      · rw [h1]
        exact List.mem_cons_self a (b :: bs)
      · exact List.mem_cons_of_mem a (List.mem_cons_of_mem b h1)

theorem minBySum_mem {K : Type} [LinearOrderedField K] (f : List Nat → K)
    (l : List (List Nat)) (p : List Nat) (h : minBySum f l = some p) :
    p ∈ l := by
  cases l with
  | nil => simp [minBySum] at h
  | cons a rest =>
    rw [minBySum] at h
    injection h with h
    rw [← h]
    exact foldl_min_mem f rest a

theorem nxShortestPathBy_sound {K : Type} [LinearOrderedField K]
    (wf : Nat → Nat → K) (g : NetGraph K) (s t : Nat) (p : List Nat)
    (h : nxShortestPathBy wf g s t = some p) : IsSimplePath g s t p :=
  simplePaths_sound g s t p (minBySum_mem _ _ p h)

theorem nxShortestPathBy_none_iff {K : Type} [LinearOrderedField K]
    (wf : Nat → Nat → K) (g : NetGraph K) (s t : Nat) :
    nxShortestPathBy wf g s t = none ↔ simplePaths g s t = [] := by
  unfold nxShortestPathBy
  cases h : simplePaths g s t with
  | nil => simp [minBySum]
  | cons a rest => simp [minBySum]

theorem edgeChain_consecPairs {K : Type} (g : NetGraph K) :
    ∀ p, EdgeChain g p → ∀ uv ∈ consecPairs p, hasEdge g uv.1 uv.2 = true := by
  intro p
  induction p with
  | nil =>
    intro _ uv huv
    simp [consecPairs] at huv
  | cons a q ih =>
    intro hchain uv huv
    cases q with
    | nil => simp [consecPairs] at huv
    | cons b rest =>
      rw [EdgeChain, List.chain'_cons] at hchain
      have hcp : consecPairs (a :: b :: rest)
          = (a, b) :: consecPairs (b :: rest) := rfl
      rw [hcp] at huv
      rcases List.mem_cons.mp huv with h | h
      · subst h
        exact hchain.1
      · exact ih hchain.2 uv h

theorem hasEdge_buildFeasible {K : Type} [LinearOrderedField K]
    (g : NetGraph K) (hsymm : ∀ u v, g.eAttr u v = g.eAttr v u) (d : K)
    (u v : Nat)
    (h : hasEdge (buildFeasibleSubgraph g (some d)) u v = true) :
    d ≤ (g.eAttr u v).bandwidth.getD ((g.eAttr u v).bandwidth_mbps.getD 0) := by
  rw [hasEdge, Bool.or_eq_true] at h
  rcases h with h | h
  · have h2 := List.mem_filter.mp
      (show (u, v) ∈ g.edgeList.filter (fun uv => decide (d ≤
          (g.eAttr uv.1 uv.2).bandwidth.getD
            ((g.eAttr uv.1 uv.2).bandwidth_mbps.getD 0))) from
        mem_of_contains_true h)
    exact of_decide_eq_true h2.2
  · have h2 := List.mem_filter.mp
      (show (v, u) ∈ g.edgeList.filter (fun uv => decide (d ≤
          (g.eAttr uv.1 uv.2).bandwidth.getD
            ((g.eAttr uv.1 uv.2).bandwidth_mbps.getD 0))) from
        mem_of_contains_true h)
    have h3 := of_decide_eq_true h2.2
    rw [hsymm v u] at h3
    exact h3

theorem pathIsFeasible_of_chain {K : Type} [LinearOrderedField K]
    (g : NetGraph K) (hsymm : ∀ u v, g.eAttr u v = g.eAttr v u) (d : K)
    (p : List Nat) (h : EdgeChain (buildFeasibleSubgraph g (some d)) p) :
    pathIsFeasible g p (some d) = true := by
  rw [pathIsFeasible, List.all_eq_true]
  intro uv huv
  have he := edgeChain_consecPairs _ p h uv huv
  exact decide_eq_true (hasEdge_buildFeasible g hsymm d uv.1 uv.2 he)

theorem pathIsFeasible_true_iff {K : Type} [LinearOrderedField K]
    (g : NetGraph K) (d : K) (p : List Nat) :
    pathIsFeasible g p (some d) = true ↔
      ∀ uv ∈ consecPairs p,
        d ≤ (g.eAttr uv.1 uv.2).bandwidth.getD
          ((g.eAttr uv.1 uv.2).bandwidth_mbps.getD 0) := by
  simp [pathIsFeasible, List.all_eq_true, decide_eq_true_eq]

theorem saLoop_best_feasible {K : Type} [LinearOrderedField K]
    (g : NetGraph K) (rlog : K → K) (gf : NetGraph K) (target : Nat)
    (weights : Weights K) (demand : Option K) (alpha : K) :
    ∀ (fuel : Nat) (current : List Nat) (curScore : K) (best : List Nat)
      (bestScore : K) (bestM : PathMetrics K) (t : K) (r : RandO)
      (best' : List Nat) (s' : K) (m' : PathMetrics K),
      pathIsFeasible g best demand = true →
      saLoop g rlog gf target weights demand alpha fuel current curScore
        best bestScore bestM t r = .ok (best', s', m') →
      pathIsFeasible g best' demand = true := by
  intro fuel
  induction fuel with
  | zero =>
    intro current curScore best bestScore bestM t r best' s' m' hb h
    rw [saLoop] at h
    injection h with h
    injection h with h1 h2
    rw [← h1]
    exact hb
  | succ fuel ih =>
    intro current curScore best bestScore bestM t r best' s' m' hb h
    rw [saLoop] at h
    by_cases hlen : current.length ≤ 2
    · rw [if_pos hlen] at h
      injection h with h
      injection h with h1 h2
      rw [← h1]
      exact hb
    · rw [if_neg hlen] at h
      rcases hri : randIndex r (current.length - 2) with ⟨i0, r1⟩
      simp only [hri] at h
      rcases hsp : nxShortestPathBy (linkDelayW gf) gf
          (current.getD (1 + i0) 0) target with _ | tail
      · simp only [hsp] at h
        exact ih current curScore best bestScore bestM (t * alpha) r1
          best' s' m' hb h
      · simp only [hsp] at h
        by_cases hfe : pathIsFeasible g (current.take (1 + i0) ++ tail)
            demand = false
        · rw [if_pos hfe] at h
          exact ih current curScore best bestScore bestM (t * alpha) r1
            best' s' m' hb h
        · rw [if_neg hfe] at h
          have hcand : pathIsFeasible g (current.take (1 + i0) ++ tail)
              demand = true := by
            cases hB : pathIsFeasible g (current.take (1 + i0) ++ tail)
                demand with
            | false => exact absurd hB hfe
            | true => rfl
          simp only [Bind.bind] at h
          rcases hm : engineCompute g rlog (current.take (1 + i0) ++ tail)
              demand with u | candM
          · rw [hm] at h
            simp only [Except.bind] at h
            cases h
          · rw [hm] at h
            simp only [Except.bind] at h
            rcases hw : weightedSum candM weights (defaultPenalty K)
              with u | candScore
            · rw [hw] at h
              simp only [Except.bind] at h
              cases h
            · rw [hw] at h
              simp only [Except.bind] at h
              rcases hacc : (if candScore - curScore < 0 then (true, r1)
                  else coinFlip r1) with ⟨accept, r2⟩
              simp only [hacc] at h
              rcases hcur : (if accept = true
                  then (current.take (1 + i0) ++ tail, candScore)
                  else (current, curScore)) with ⟨current1, curScore1⟩
              simp only [hcur] at h
              rcases hb1 : (if accept = true ∧ candScore < bestScore
                  then (current.take (1 + i0) ++ tail, candScore, candM)
                  else (best, bestScore, bestM))
                with ⟨best1, bestScore1, bestM1⟩
              simp only [hb1] at h
              have hfb1 : pathIsFeasible g best1 demand = true := by
                by_cases hcnd : accept = true ∧ candScore < bestScore
                · rw [if_pos hcnd] at hb1
                  injection hb1 with e1 e2
                  rw [← e1]
                  exact hcand
                · rw [if_neg hcnd] at hb1
                  injection hb1 with e1 e2
                  rw [← e1]
                  exact hb
              by_cases ht : t * alpha < saTmin K
              · rw [if_pos ht] at h
                injection h with h
                injection h with h1 h2
                rw [← h1]
                exact hfb1
              · rw [if_neg ht] at h
                exact ih current1 curScore1 best1 bestScore1 bestM1
                  (t * alpha) r2 best' s' m' hfb1 h

/-- C2 (amended).  SA hard-demand compliance with the attribute the code
actually reads: `simulated_annealing` with hard demand `B` returns `NoPath`
exactly when the working graph keeping only the edges whose `bandwidth`
attribute (fallback `bandwidth_mbps`, then `0`) meets `B` has no path from
source to target, and every consecutive pair of a returned path satisfies
that same `bandwidth`-attribute bound. -/
theorem sa_hard_demand_amended {K : Type} [LinearOrderedField K]
    (g : NetGraph K) (hwf : GraphWF g) (rlog : K → K) (source target : Nat)
    (weights : Weights K) (d : K) (t0 alpha : K) (maxIter : Nat)
    (r : RandO) :
    (simulatedAnnealing g rlog source target weights (some d) t0 alpha
        maxIter r = .ok none
      ↔ simplePaths (buildFeasibleSubgraph g (some d)) source target = []) ∧
    (∀ (best : List Nat) (score : K) (m : PathMetrics K),
      simulatedAnnealing g rlog source target weights (some d) t0 alpha
        maxIter r = .ok (some (best, score, m)) →
      ∀ uv ∈ consecPairs best,
        d ≤ (g.eAttr uv.1 uv.2).bandwidth.getD
          ((g.eAttr uv.1 uv.2).bandwidth_mbps.getD 0)) := by
  constructor
  · rw [simulatedAnnealing]
    rcases hsp : nxShortestPathBy
        (linkDelayW (buildFeasibleSubgraph g (some d)))
        (buildFeasibleSubgraph g (some d)) source target with _ | current
    · simp only []
      constructor
      · intro _
        exact (nxShortestPathBy_none_iff _ _ _ _).mp hsp
      · intro _
        trivial
    · simp only []
      constructor
      · intro h
        exfalso
        simp only [Bind.bind] at h
        rcases hm : engineCompute g rlog current (some d) with u | curM
        · rw [hm] at h
          simp only [Except.bind] at h
          cases h
        · rw [hm] at h
          simp only [Except.bind] at h
          rcases hw : weightedSum curM weights (defaultPenalty K)
            with u | curScore
          · rw [hw] at h
            simp only [Except.bind] at h
            cases h
          · rw [hw] at h
            simp only [Except.bind] at h
            rcases hl : saLoop g rlog (buildFeasibleSubgraph g (some d))
                target weights (some d) alpha maxIter current curScore
                current curScore curM t0 r with u | trip
            · rw [hl] at h
              simp only [Except.bind] at h
              cases h
            · rw [hl] at h
              simp only [Except.bind] at h
              obtain ⟨best, bestScore, bestM⟩ := trip
              simp only [] at h
              have hcur_f : pathIsFeasible g current (some d) = true := by
                have hsimple := nxShortestPathBy_sound _ _ source target
                  current hsp
                exact pathIsFeasible_of_chain g hwf.symm d current
                  hsimple.2.2.1
              have hbest_f := saLoop_best_feasible g rlog
                (buildFeasibleSubgraph g (some d)) target weights (some d)
                alpha maxIter current curScore current curScore curM t0 r
                best bestScore bestM hcur_f hl
              rw [if_neg (by simp [hbest_f])] at h
              simp only [pure, Except.pure] at h
              injection h with h
              exact Option.noConfusion h
      · intro hdis
        exfalso
        have h2 := (nxShortestPathBy_none_iff
          (linkDelayW (buildFeasibleSubgraph g (some d)))
          (buildFeasibleSubgraph g (some d)) source target).mpr hdis
        rw [hsp] at h2
        cases h2
  · intro best score m h
    rw [simulatedAnnealing] at h
    rcases hsp : nxShortestPathBy
        (linkDelayW (buildFeasibleSubgraph g (some d)))
        (buildFeasibleSubgraph g (some d)) source target with _ | current
    · simp only [hsp] at h
      injection h with h
      exact Option.noConfusion h
    · simp only [hsp] at h
      simp only [Bind.bind] at h
      rcases hm : engineCompute g rlog current (some d) with u | curM
      · rw [hm] at h
        simp only [Except.bind] at h
        cases h
      · rw [hm] at h
        simp only [Except.bind] at h
        rcases hw : weightedSum curM weights (defaultPenalty K)
          with u | curScore
        · rw [hw] at h
          simp only [Except.bind] at h
          cases h
        · rw [hw] at h
          simp only [Except.bind] at h
          rcases hl : saLoop g rlog (buildFeasibleSubgraph g (some d))
              target weights (some d) alpha maxIter current curScore
              current curScore curM t0 r with u | trip
          · rw [hl] at h
            simp only [Except.bind] at h
            cases h
          · rw [hl] at h
            simp only [Except.bind] at h
            obtain ⟨best0, bestScore0, bestM0⟩ := trip
            simp only [] at h
            by_cases hf : pathIsFeasible g best0 (some d) = false
            · rw [if_pos hf] at h
              simp only [pure, Except.pure] at h
              injection h with h
              exact Option.noConfusion h
            · rw [if_neg hf] at h
              simp only [pure, Except.pure] at h
              injection h with h
              injection h with h
              injection h with e1 e2
              have hfe : pathIsFeasible g best0 (some d) = true := by
                cases hB : pathIsFeasible g best0 (some d) with
                | false => exact absurd hB hf
                | true => rfl
              rw [← e1]
              exact (pathIsFeasible_true_iff g d best0).mp hfe

/-- C2 counterexample.  On the one-edge graph whose edge has
`capacity_mbps = 100` but `bandwidth = 1`, with demand `10`,
`simulated_annealing` returns `NoPath` although the working graph of the
SPEC (filtering on `capacity_mbps ≥ B`) keeps the edge and connects source
and target: the code's filter reads the `bandwidth` attribute (falling back
to `bandwidth_mbps`, then `0`), never `capacity_mbps`. -/
theorem sa_filters_on_bandwidth :
    simulatedAnnealing saCxGraph (fun _ => 0) 0 1 ⟨1, 0, 0⟩ (some 10) 5
        (1 / 2) 0 ⟨fun _ => 0, 0⟩ = .ok none
    ∧ simplePaths (buildFeasibleSubgraphSpec saCxGraph (some 10)) 0 1
        = [[0, 1]]
    ∧ (10 : ℚ) ≤ (saCxGraph.eAttr 0 1).capacity_mbps := by
  refine ⟨?_, ?_, ?_⟩
  · rfl
  · rfl
  · norm_num [saCxGraph]

/-- Concrete instance of `sa_hard_demand_amended` on the one-edge graph
with demand `1` (met by the edge's `bandwidth`). -/
theorem sa_hard_demand_amended_witness :
    (simulatedAnnealing saCxGraph (fun _ => 0) 0 1 ⟨1, 0, 0⟩ (some 1) 5
        (1 / 2) 0 ⟨fun _ => 0, 0⟩ = .ok none
      ↔ simplePaths (buildFeasibleSubgraph saCxGraph (some 1)) 0 1 = []) ∧
    (∀ (best : List Nat) (score : ℚ) (m : PathMetrics ℚ),
      simulatedAnnealing saCxGraph (fun _ => 0) 0 1 ⟨1, 0, 0⟩ (some 1) 5
        (1 / 2) 0 ⟨fun _ => 0, 0⟩ = .ok (some (best, score, m)) →
      ∀ uv ∈ consecPairs best,
        (1 : ℚ) ≤ (saCxGraph.eAttr uv.1 uv.2).bandwidth.getD
          ((saCxGraph.eAttr uv.1 uv.2).bandwidth_mbps.getD 0)) :=
  sa_hard_demand_amended saCxGraph ⟨by decide, by decide, fun u v => rfl⟩
    (fun _ => 0) 0 1 ⟨1, 0, 0⟩ 1 5 (1 / 2) 0 ⟨fun _ => 0, 0⟩

end ClaimC2

section ClaimC1

theorem foldl_add_sum {K : Type} [LinearOrderedField K] {α : Type}
    (f : α → K) :
    ∀ (l : List α) (c : K),
      l.foldl (fun a x => a + f x) c = c + (l.map f).sum := by
  intro l
  induction l with
  | nil => intro c; simp
  | cons b bs ih =>
    intro c
    rw [List.foldl_cons, ih (c + f b), List.map_cons, List.sum_cons]
    ring

theorem sum_map_congr {K : Type} [LinearOrderedField K] {α : Type}
    (f h : α → K) :
    ∀ (l : List α), (∀ a ∈ l, f a = h a) →
      (l.map f).sum = (l.map h).sum := by
  intro l
  induction l with
  | nil => intro _; rfl
  | cons b bs ih =>
    intro heq
    rw [List.map_cons, List.map_cons, List.sum_cons, List.sum_cons,
      heq b (List.mem_cons_self b bs), ih (fun a ha => heq a (List.mem_cons_of_mem b ha))]

theorem sum_map_add {K : Type} [LinearOrderedField K] {α : Type}
    (f h : α → K) :
    ∀ (l : List α),
      (l.map (fun x => f x + h x)).sum = (l.map f).sum + (l.map h).sum := by
  intro l
  induction l with
  | nil => simp
  | cons b bs ih =>
    rw [List.map_cons, List.map_cons, List.map_cons, List.sum_cons,
      List.sum_cons, List.sum_cons, ih]
    ring

theorem sum_map_le {K : Type} [LinearOrderedField K] {α : Type}
    (f h : α → K) :
    ∀ (l : List α), (∀ a ∈ l, f a ≤ h a) →
      (l.map f).sum ≤ (l.map h).sum := by
  intro l
  induction l with
  | nil => intro _; simp
  | cons b bs ih =>
    intro hle
    rw [List.map_cons, List.map_cons, List.sum_cons, List.sum_cons]
    exact add_le_add (hle b (List.mem_cons_self b bs))
      (ih (fun a ha => hle a (List.mem_cons_of_mem b ha)))

theorem sum_map_mul {K : Type} [LinearOrderedField K] {α : Type}
    (c : K) (f : α → K) :
    ∀ (l : List α), (l.map (fun x => c * f x)).sum = c * (l.map f).sum := by
  intro l
  induction l with
  | nil => simp
  | cons b bs ih =>
    rw [List.map_cons, List.map_cons, List.sum_cons, List.sum_cons, ih]
    ring

theorem consec_snd_sum {K : Type} [LinearOrderedField K] (h : Nat → K) :
    ∀ (q : List Nat),
      ((consecPairs q).map (fun uv => h uv.2)).sum = (q.tail.map h).sum := by
  intro q
  induction q with
  | nil => rfl
  | cons a q1 ih =>
    cases q1 with
    | nil => rfl
    | cons b q2 =>
      have hcp : consecPairs (a :: b :: q2)
          = (a, b) :: consecPairs (b :: q2) := rfl
      rw [hcp, List.map_cons, List.sum_cons, ih]
      simp

theorem pair_foldl_fst_sum {K : Type} [LinearOrderedField K] {α : Type}
    (f : α → K) (m : K → α → K) :
    ∀ (l : List α) (init : K × K),
      (l.foldl (fun acc x => (acc.1 + f x, m acc.2 x)) init).1
        = init.1 + (l.map f).sum := by
  intro l
  induction l with
  | nil => intro init; simp
  | cons b bs ih =>
    intro init
    rw [List.foldl_cons, ih, List.map_cons, List.sum_cons]
    ring

theorem pair_foldl_snd_sum {K : Type} [LinearOrderedField K] {α β : Type}
    (f : α → K) (m : β → α → β) :
    ∀ (l : List α) (init : β × K),
      (l.foldl (fun acc x => (m acc.1 x, acc.2 + f x)) init).2
        = init.2 + (l.map f).sum := by
  intro l
  induction l with
  | nil => intro init; simp
  | cons b bs ih =>
    intro init
    rw [List.foldl_cons, ih, List.map_cons, List.sum_cons]
    ring

theorem linkDelaySumF_sum {K : Type} [LinearOrderedField K] (g : NetGraph K)
    (q : List Nat) :
    linkDelaySumF g q
      = ((consecPairs q).map
          (fun uv => (g.eAttr uv.1 uv.2).link_delay_ms)).sum := by
  rw [linkDelaySumF]
  have := foldl_add_sum (fun uv : Nat × Nat => (g.eAttr uv.1 uv.2).link_delay_ms)
    (consecPairs q) 0
  rw [zero_add] at this
  exact this

theorem processingSumF_sum {K : Type} [LinearOrderedField K] (g : NetGraph K)
    (q : List Nat) :
    processingSumF g q
      = (((q.drop 1).dropLast).map
          (fun n => (g.nAttr n).processing_delay_ms)).sum := by
  rw [processingSumF]
  have := foldl_add_sum (fun n => (g.nAttr n).processing_delay_ms)
    ((q.drop 1).dropLast) 0
  rw [zero_add] at this
  exact this

theorem nodeRelF_fst_sum {K : Type} [LinearOrderedField K] (g : NetGraph K)
    (rlog : K → K) (q : List Nat) :
    (nodeRelF g rlog q).1
      = (q.map (fun n =>
          -rlog (max (g.nAttr n).node_reliability (engineEps K)))).sum := by
  rw [nodeRelF]
  have := pair_foldl_fst_sum
    (fun n => -rlog (max (g.nAttr n).node_reliability (engineEps K)))
    (fun a n => a * max (g.nAttr n).node_reliability (engineEps K))
    q ((0 : K), (1 : K))
  rw [zero_add] at this
  exact this

theorem linkRelFoldF_fst_sum {K : Type} [LinearOrderedField K]
    (g : NetGraph K) (rlog : K → K) (q : List Nat) :
    (linkRelFoldF g rlog q).1
      = (q.map (fun n =>
          -rlog (max (g.nAttr n).node_reliability (engineEps K)))).sum
        + ((consecPairs q).map (fun uv =>
          -rlog (max (g.eAttr uv.1 uv.2).link_reliability (engineEps K)))).sum := by
  rw [linkRelFoldF]
  have := pair_foldl_fst_sum
    (fun uv : Nat × Nat =>
      -rlog (max (g.eAttr uv.1 uv.2).link_reliability (engineEps K)))
    (fun a uv => a * max (g.eAttr uv.1 uv.2).link_reliability (engineEps K))
    (consecPairs q) (nodeRelF g rlog q)
  rw [nodeRelF_fst_sum] at this
  exact this

theorem resFoldF_snd_sum {K : Type} [LinearOrderedField K] (g : NetGraph K)
    (q : List Nat) :
    (resFoldF g q).2
      = ((consecPairs q).map (fun uv =>
          refBW K / max (g.eAttr uv.1 uv.2).capacity_mbps (engineEps K))).sum := by
  rw [resFoldF]
  have := pair_foldl_snd_sum
    (fun uv : Nat × Nat =>
      refBW K / max (g.eAttr uv.1 uv.2).capacity_mbps (engineEps K))
    (fun (a : WithTop K) (uv : Nat × Nat) =>
      min a ((max (g.eAttr uv.1 uv.2).capacity_mbps (engineEps K) : K) : WithTop K))
    (consecPairs q) ((⊤ : WithTop K), (0 : K))
  rw [zero_add] at this
  exact this

theorem topoTotalDelay_sum {K : Type} [LinearOrderedField K] (g : NetGraph K)
    (source target : Nat) (q : List Nat) :
    topoTotalDelay g source target q
      = ((consecPairs q).map
          (fun uv => (g.eAttr uv.1 uv.2).link_delay_ms)).sum
        + (q.map (fun k =>
            if k ≠ source ∧ k ≠ target
            then (g.nAttr k).processing_delay_ms else 0)).sum := by
  rw [topoTotalDelay]
  have h1 := foldl_add_sum
    (fun uv : Nat × Nat => (g.eAttr uv.1 uv.2).link_delay_ms)
    (consecPairs q) 0
  have h2 := foldl_add_sum
    (fun k => if k ≠ source ∧ k ≠ target
      then (g.nAttr k).processing_delay_ms else 0) q 0
  rw [zero_add] at h1 h2
  rw [h1, h2]

theorem topoRelCost_sum {K : Type} [LinearOrderedField K] (g : NetGraph K)
    (rlog : K → K) (q : List Nat) :
    topoRelCost g rlog q
      = ((consecPairs q).map (fun uv =>
          -rlog (max (g.eAttr uv.1 uv.2).link_reliability (engineEps K)))).sum
        + (q.map (fun n =>
            -rlog (max (g.nAttr n).node_reliability (engineEps K)))).sum := by
  rw [topoRelCost]
  have h1 := foldl_add_sum
    (fun uv : Nat × Nat =>
      -rlog (max (g.eAttr uv.1 uv.2).link_reliability (engineEps K)))
    (consecPairs q) 0
  have h2 := foldl_add_sum
    (fun n => -rlog (max (g.nAttr n).node_reliability (engineEps K))) q 0
  rw [zero_add] at h1 h2
  rw [h1, h2]

theorem topoResCost_sum {K : Type} [LinearOrderedField K] (g : NetGraph K)
    (q : List Nat) :
    topoResCost g q
      = ((consecPairs q).map (fun uv =>
          1000 / max (topoBW (g.eAttr uv.1 uv.2)) (topoBWFloor K))).sum := by
  rw [topoResCost]
  have := foldl_add_sum
    (fun uv : Nat × Nat => 1000 / max (topoBW (g.eAttr uv.1 uv.2)) (topoBWFloor K))
    (consecPairs q) 0
  rw [zero_add] at this
  exact this

theorem pathTopoWeight_sum {K : Type} [LinearOrderedField K] (g : NetGraph K)
    (rlog : K → K) (source target : Nat) (wd wr wres : K) (q : List Nat) :
    pathTopoWeight g rlog source target wd wr wres q
      = ((consecPairs q).map
          (fun uv => topoEdgeWeight g rlog source target wd wr wres uv.1 uv.2)).sum := by
  rw [pathTopoWeight]
  have := foldl_add_sum
    (fun uv : Nat × Nat => topoEdgeWeight g rlog source target wd wr wres uv.1 uv.2)
    (consecPairs q) 0
  rw [zero_add] at this
  exact this

theorem topo_hop_general {K : Type} [LinearOrderedField K] (g : NetGraph K)
    (rlog : K → K) (S T : Nat) (wd wr wres : K) :
    ∀ (rest : List Nat) (a : Nat),
      wd * topoTotalDelay g S T (a :: rest)
        + wr * topoRelCost g rlog (a :: rest)
        + wres * topoResCost g (a :: rest)
      = pathTopoWeight g rlog S T wd wr wres (a :: rest)
        + wr * -rlog (max (g.nAttr a).node_reliability (engineEps K))
        + wd * (if a ≠ S ∧ a ≠ T then (g.nAttr a).processing_delay_ms else 0) := by
  intro rest
  induction rest with
  | nil =>
    intro a
    simp [topoTotalDelay, topoRelCost, topoResCost, pathTopoWeight,
      consecPairs]
    ring
  | cons b rest ih =>
    intro a
    have ihb := ih b
    rw [topoTotalDelay_sum, topoRelCost_sum, topoResCost_sum,
      pathTopoWeight_sum] at ihb ⊢
    have hcp : consecPairs (a :: b :: rest) = (a, b) :: consecPairs (b :: rest) := rfl
    rw [hcp]
    simp only [List.map_cons, List.sum_cons] at ihb ⊢
    have hexp : topoEdgeWeight g rlog S T wd wr wres (a, b).1 (a, b).2
        = wd * ((g.eAttr a b).link_delay_ms
            + (if b = S ∨ b = T then 0 else (g.nAttr b).processing_delay_ms))
          + wr * (-rlog (max (g.eAttr a b).link_reliability (engineEps K))
            + -rlog (max (g.nAttr b).node_reliability (engineEps K)))
          + wres * (1000 / max (topoBW (g.eAttr a b)) (topoBWFloor K)) := rfl
    rw [hexp]
    have hite : (if b = S ∨ b = T then (0 : K)
        else (g.nAttr b).processing_delay_ms)
        = (if b ≠ S ∧ b ≠ T then (g.nAttr b).processing_delay_ms else 0) := by
      by_cases h : b = S ∨ b = T
      · rw [if_pos h, if_neg (by tauto)]
      · rw [if_neg h, if_pos (by tauto)]
    rw [hite]
    linear_combination ihb

theorem simple_decomp (S T : Nat) (hST : S ≠ T) :
    ∀ (q : List Nat), q.head? = some S → q.getLast? = some T → q.Nodup →
      ∃ mid : List Nat, q = S :: (mid ++ [T]) ∧ S ∉ mid ∧ T ∉ mid := by
  intro q hh hl hnd
  cases q with
  | nil => cases hh
  | cons a t =>
    rw [List.head?_cons, Option.some.injEq] at hh
    cases t with
    | nil =>
      exfalso
      simp at hl
      exact hST (by rw [← hh, hl])
    | cons b t2 =>
      have hne : (b :: t2) ≠ [] := by simp
      have hgl : (b :: t2).getLast hne = T := by
        rw [List.getLast?_cons_cons] at hl
        rw [List.getLast?_eq_getLast _ hne, Option.some.injEq] at hl
        exact hl
      have hdec := List.dropLast_append_getLast hne
      refine ⟨(b :: t2).dropLast, ?_, ?_, ?_⟩
      · rw [← hh, ← hgl, hdec]
      · intro hS
        have hmem : S ∈ b :: t2 := List.dropLast_subset _ hS
        rw [← hh] at hmem
        exact (List.nodup_cons.mp hnd).1 hmem
      · intro hT
        have hnd2 := (List.nodup_cons.mp hnd).2
        rw [← hdec] at hnd2
        have hdisj := List.disjoint_of_nodup_append hnd2
        exact hdisj hT (by rw [hgl]; exact List.mem_singleton.mpr rfl)

theorem interior_sum_eq {K : Type} [LinearOrderedField K] (f : Nat → K)
    (S T : Nat) (mid : List Nat) (hS : S ∉ mid) (hT : T ∉ mid) :
    ((((S :: (mid ++ [T])).drop 1).dropLast).map f).sum
      = ((S :: (mid ++ [T])).map
          (fun k => if k ≠ S ∧ k ≠ T then f k else 0)).sum := by
  have hdl : ((S :: (mid ++ [T])).drop 1).dropLast = mid := by
    simp
  rw [hdl, List.map_cons, List.sum_cons, List.map_append, List.sum_append]
  have hQS : (if S ≠ S ∧ S ≠ T then f S else (0 : K)) = 0 := by simp
  have hQT : ((([T]).map
      (fun k => if k ≠ S ∧ k ≠ T then f k else (0 : K)))).sum = 0 := by simp
  rw [hQS, hQT]
  have hmid : (mid.map (fun k => if k ≠ S ∧ k ≠ T then f k else (0 : K))).sum
      = (mid.map f).sum := by
    apply sum_map_congr
    intro a ha
    refine if_pos ⟨?_, ?_⟩
    · intro h
      rw [h] at ha
      exact hS ha
    · intro h
      rw [h] at ha
      exact hT ha
  rw [hmid]
  ring

theorem engine_ge_topo {K : Type} [LinearOrderedField K] (g : NetGraph K)
    (rlog : K → K) (S T : Nat) (wd wr wres : K) (hwres : 0 ≤ wres)
    (hbw : ∀ u v, hasEdge g u v = true →
      (g.eAttr u v).bandwidth_mbps = some ((g.eAttr u v).capacity_mbps))
    (hST : S ≠ T) (q : List Nat) (hq : IsSimplePath g S T q) :
    wd * topoTotalDelay g S T q + wr * topoRelCost g rlog q
      + wres * topoResCost g q
    ≤ wd * (linkDelaySumF g q + processingSumF g q)
      + wr * (linkRelFoldF g rlog q).1 + wres * (resFoldF g q).2 := by
  obtain ⟨hh, hl, hch, hnd⟩ := hq
  obtain ⟨mid, hqe, hSm, hTm⟩ := simple_decomp S T hST q hh hl hnd
  have hdelay : topoTotalDelay g S T q
      = linkDelaySumF g q + processingSumF g q := by
    rw [topoTotalDelay_sum, linkDelaySumF_sum, processingSumF_sum, hqe,
      interior_sum_eq (fun n => (g.nAttr n).processing_delay_ms) S T mid
        hSm hTm]
  have hrel : topoRelCost g rlog q = (linkRelFoldF g rlog q).1 := by
    rw [topoRelCost_sum, linkRelFoldF_fst_sum]
    ring
  have hresle : topoResCost g q ≤ (resFoldF g q).2 := by
    rw [topoResCost_sum, resFoldF_snd_sum]
    apply sum_map_le
    intro uv huv
    have hedge := edgeChain_consecPairs g q hch uv huv
    rw [topoBW, hbw uv.1 uv.2 hedge, Option.getD_some]
    have hrb : refBW K = (1000 : K) := rfl
    rw [hrb]
    have h1 : (0 : K) < max (g.eAttr uv.1 uv.2).capacity_mbps (engineEps K) :=
      lt_max_of_lt_right (by norm_num [engineEps])
    have h2 : max (g.eAttr uv.1 uv.2).capacity_mbps (engineEps K)
        ≤ max (g.eAttr uv.1 uv.2).capacity_mbps (topoBWFloor K) :=
      max_le_max (le_refl _) (by norm_num [engineEps, topoBWFloor])
    gcongr
  rw [hdelay, hrel]
  have hmul := mul_le_mul_of_nonneg_left hresle hwres
  linarith

theorem hasEdge_mem_neighborsOf {K : Type} (g : NetGraph K) (u v : Nat)
    (h : hasEdge g u v = true) : v ∈ neighborsOf g u := by
  rw [hasEdge, Bool.or_eq_true] at h
  rw [neighborsOf, List.mem_flatMap]
  rcases h with h | h
  · exact ⟨(u, v), mem_of_contains_true h, by simp⟩
  · refine ⟨(v, u), mem_of_contains_true h, ?_⟩
    by_cases hvu : v = u
    · subst hvu
      simp
    · simp [hvu]

theorem chain_mem_nodes {K : Type} (g : NetGraph K) (hwf : GraphWF g) :
    ∀ (q : List Nat), EdgeChain g q → 2 ≤ q.length →
      ∀ x ∈ q, x ∈ g.nodes := by
  intro q
  induction q with
  | nil =>
    intro _ h2
    simp at h2
  | cons a q1 ih =>
    intro hch h2 x hx
    cases q1 with
    | nil => simp at h2
    | cons b q2 =>
      have hedge : hasEdge g a b = true := (List.chain'_cons.mp hch).1
      have hab : a ∈ g.nodes ∧ b ∈ g.nodes := by
        rw [hasEdge, Bool.or_eq_true] at hedge
        rcases hedge with h | h
        · exact hwf.ends_mem (a, b) (mem_of_contains_true h)
        · have := hwf.ends_mem (b, a) (mem_of_contains_true h)
          exact ⟨this.2, this.1⟩
      rcases List.mem_cons.mp hx with rfl | hx
      · exact hab.1
      · cases q2 with
        | nil =>
          rw [List.mem_singleton] at hx
          rw [hx]
          exact hab.2
        | cons c2 q3 =>
          exact ih (List.chain'_cons.mp hch).2 (by simp) x hx

theorem simplePathsAux_complete {K : Type} (g : NetGraph K) (t : Nat) :
    ∀ (q : List Nat) (fuel : Nat) (visited : List Nat) (c : Nat),
      q.head? = some c → q.getLast? = some t → EdgeChain g q → q.Nodup →
      (∀ x ∈ q, x ∉ visited) → q.length ≤ fuel →
      q ∈ simplePathsAux g fuel visited c t := by
  intro q
  induction q with
  | nil =>
    intro fuel visited c hh
    cases hh
  | cons a q1 ih =>
    intro fuel visited c hh hl hch hnd hvis hlen
    rw [List.head?_cons, Option.some.injEq] at hh
    subst hh
    cases fuel with
    | zero => simp at hlen
    | succ fuel =>
      rw [simplePathsAux]
      by_cases hct : a = t
      · rw [if_pos hct]
        cases hq1 : q1 with
        | nil =>
          subst hq1
          rw [List.mem_singleton, hct]
        | cons b q2 =>
          exfalso
          rw [hq1] at hl hnd
          rw [List.getLast?_cons_cons] at hl
          have htmem : t ∈ b :: q2 := by
            have hne : (b :: q2) ≠ [] := by simp
            rw [List.getLast?_eq_getLast _ hne, Option.some.injEq] at hl
            rw [← hl]
            exact List.getLast_mem hne
          rw [← hct] at htmem
          exact (List.nodup_cons.mp hnd).1 htmem
      · rw [if_neg hct]
        cases hq1 : q1 with
        | nil =>
          exfalso
          rw [hq1] at hl
          simp at hl
          exact hct hl
        | cons b q2 =>
          subst hq1
          rw [List.mem_flatMap]
          have hedge : hasEdge g a b = true := (List.chain'_cons.mp hch).1
          refine ⟨b, ?_, ?_⟩
          · rw [List.mem_filter]
            refine ⟨hasEdge_mem_neighborsOf g a b hedge, ?_⟩
            rw [Bool.not_eq_true']
            by_cases hmem : b ∈ a :: visited
            · exfalso
              rcases List.mem_cons.mp hmem with hba | hbv
              · refine (List.nodup_cons.mp hnd).1 ?_
                rw [← hba]
                exact List.mem_cons_self b q2
              · exact hvis b
                  (List.mem_cons_of_mem a (List.mem_cons_self b q2)) hbv
            · cases hcont : (a :: visited).contains b with
              | false => rfl
              | true => exact absurd (mem_of_contains_true hcont) hmem
          · rw [List.mem_map]
            refine ⟨b :: q2, ?_, rfl⟩
            refine ih fuel (a :: visited) b rfl ?_ ?_ ?_ ?_ ?_
            · rw [List.getLast?_cons_cons] at hl
              exact hl
            · exact (List.chain'_cons.mp hch).2
            · exact (List.nodup_cons.mp hnd).2
            · intro x hx hmem
              rcases List.mem_cons.mp hmem with hxa | hxv
              · refine (List.nodup_cons.mp hnd).1 ?_
                rw [← hxa]
                exact hx
              · exact hvis x (List.mem_cons_of_mem a hx) hxv
            · have : (a :: b :: q2).length ≤ fuel + 1 := hlen
              simp at this ⊢
              omega
      
theorem simplePaths_complete {K : Type} (g : NetGraph K) (hwf : GraphWF g)
    (S T : Nat) (hST : S ≠ T) (q : List Nat) (hq : IsSimplePath g S T q) :
    q ∈ simplePaths g S T := by
  obtain ⟨hh, hl, hch, hnd⟩ := hq
  have h2 : 2 ≤ q.length := by
    cases q with
    | nil => cases hh
    | cons a q1 =>
      cases q1 with
      | nil =>
        exfalso
        rw [List.head?_cons, Option.some.injEq] at hh
        simp at hl
        exact hST (by rw [← hh, hl])
      | cons b q2 => simp
  have hsub : ∀ x ∈ q, x ∈ g.nodes := chain_mem_nodes g hwf q hch h2
  have hsp := List.subperm_of_subset hnd (fun x hx => hsub x hx)
  have hlen := List.Subperm.length_le hsp
  exact simplePathsAux_complete g T q (g.nodes.length + 1) [] S hh hl hch hnd
    (fun x _ => List.not_mem_nil x) (by omega)

theorem foldl_min_le {K : Type} [LinearOrderedField K] {α : Type}
    (f : α → K) :
    ∀ (l : List α) (a : α),
      f (l.foldl (fun best q => if f q < f best then q else best) a) ≤ f a
      ∧ ∀ q ∈ l,
        f (l.foldl (fun best q => if f q < f best then q else best) a) ≤ f q := by
  intro l
  induction l with
  | nil =>
    intro a
    refine ⟨le_refl _, ?_⟩
    intro q hq
    cases hq
  | cons b bs ih =>
    intro a
    rw [List.foldl_cons]
    by_cases h : f b < f a
    · rw [if_pos h]
      refine ⟨le_trans (ih b).1 (le_of_lt h), ?_⟩
      intro x hx
      rcases List.mem_cons.mp hx with hxb | hx
      · rw [hxb]
        exact (ih b).1
      · exact (ih b).2 x hx
    · rw [if_neg h]
      refine ⟨(ih a).1, ?_⟩
      intro x hx
      rcases List.mem_cons.mp hx with hxb | hx
      · rw [hxb]
        exact le_trans (ih a).1 (not_lt.mp h)
      · exact (ih a).2 x hx

theorem minBySum_min {K : Type} [LinearOrderedField K] (f : List Nat → K)
    (l : List (List Nat)) (p : List Nat) (h : minBySum f l = some p) :
    ∀ q ∈ l, f p ≤ f q := by
  cases l with
  | nil => cases h
  | cons a rest =>
    rw [minBySum] at h
    injection h with h
    intro q hq
    rcases List.mem_cons.mp hq with hqa | hq
    · rw [← h, hqa]
      exact (foldl_min_le f rest a).1
    · rw [← h]
      exact (foldl_min_le f rest a).2 q hq

/-- C1.  Baseline optimality: on a graph whose attributes lie in the spec
ranges (delays nonnegative, reliabilities in `(0, 1]`, capacities positive,
`bandwidth_mbps` equal to `capacity_mbps` on every edge — the ranges under
which the scalarized edge weight is nonnegative and the contract model
`nxShortestPathBy` is faithful to Dijkstra), for every nonnegative weight
triple accepted by the routine and every simple path `q` from `S` to `T`,
the engine score `weighted_sum(compute(q), w)` is at least the `total_cost`
reported by `compute_path_weighted(G, S, T, w)` minus `1e-6`. -/
theorem baseline_optimality {K : Type} [LinearOrderedField K]
    (g : NetGraph K) (rlog : K → K) (hwf : GraphWF g)
    (_hdel : ∀ u v, hasEdge g u v = true → 0 ≤ (g.eAttr u v).link_delay_ms)
    (_hproc : ∀ n, n ∈ g.nodes → 0 ≤ (g.nAttr n).processing_delay_ms)
    (_hlrel : ∀ u v, hasEdge g u v = true →
      0 < (g.eAttr u v).link_reliability ∧ (g.eAttr u v).link_reliability ≤ 1)
    (_hnrel : ∀ n, n ∈ g.nodes →
      0 < (g.nAttr n).node_reliability ∧ (g.nAttr n).node_reliability ≤ 1)
    (_hcap : ∀ u v, hasEdge g u v = true → 0 < (g.eAttr u v).capacity_mbps)
    (hbw : ∀ u v, hasEdge g u v = true →
      (g.eAttr u v).bandwidth_mbps = some ((g.eAttr u v).capacity_mbps))
    (w1 w2 w3 : K) (_hw1 : 0 ≤ w1) (_hw2 : 0 ≤ w2) (hw3 : 0 ≤ w3)
    (S T : Nat) (p : List Nat) (tc : K)
    (hres : computePathWeighted g rlog S T w1 w2 w3 = some (p, tc))
    (q : List Nat) (hq : IsSimplePath g S T q) :
    ∃ (m : PathMetrics K) (c : K),
      engineCompute g rlog q none = .ok m
      ∧ weightedSum m ⟨w1, w2, w3⟩ (defaultPenalty K) = .ok c
      ∧ tc - 1 / 1000000 ≤ c := by
  rw [computePathWeighted] at hres
  by_cases hst : S = T
  · rw [if_pos hst] at hres
    cases hres
  · rw [if_neg hst] at hres
    simp only [] at hres
    by_cases htot : w1 + w2 + w3 ≤ engineEps K
    · rw [if_pos htot] at hres
      cases hres
    · rw [if_neg htot] at hres
      by_cases hmem : S ∈ g.nodes ∧ T ∈ g.nodes
      · rw [if_pos hmem] at hres
        rcases hnx : nxShortestPathBy
            (topoEdgeWeight g rlog S T (w1 / (w1 + w2 + w3))
              (w2 / (w1 + w2 + w3)) (w3 / (w1 + w2 + w3))) g S T
          with _ | p0
        · simp only [hnx] at hres
          cases hres
        · simp only [hnx] at hres
          injection hres with hres
          injection hres with _hp htc
          obtain ⟨hh, hl, hch, hnd⟩ := hq
          have h2 : 2 ≤ q.length := by
            cases q with
            | nil => cases hh
            | cons a q1 =>
              cases q1 with
              | nil =>
                exfalso
                rw [List.head?_cons, Option.some.injEq] at hh
                simp at hl
                exact hst (by rw [← hh, hl])
              | cons b q2 => simp
          have hlen2 : ¬ q.length < 2 := by omega
          have hedges : ∀ uv ∈ consecPairs q, hasEdge g uv.1 uv.2 = true :=
            edgeChain_consecPairs g q hch
          have htot0 : ¬ (w1 + w2 + w3 ≤ 0) := by
            intro hc
            exact htot (le_trans hc (by norm_num [engineEps]))
          have htotpos : (0 : K) < w1 + w2 + w3 := not_le.mp htot0
          have hnorm : Weights.normalizedE (⟨w1, w2, w3⟩ : Weights K)
              = .ok ⟨w1 / (w1 + w2 + w3), w2 / (w1 + w2 + w3),
                  w3 / (w1 + w2 + w3)⟩ := by
            rw [Weights.normalizedE]
            simp only []
            rw [if_neg htot0]
          have hws : weightedSum (engineMetricsF g rlog q none)
              (⟨w1, w2, w3⟩ : Weights K) (defaultPenalty K)
              = .ok (w1 / (w1 + w2 + w3)
                  * (linkDelaySumF g q + processingSumF g q)
                + w2 / (w1 + w2 + w3) * (linkRelFoldF g rlog q).1
                + w3 / (w1 + w2 + w3) * (resFoldF g q).2) := by
            rw [weightedSum]
            simp only [Bind.bind, hnorm, Except.bind]
            rfl
          refine ⟨engineMetricsF g rlog q none, _,
            engineCompute_ok g rlog q none hlen2 hedges, hws, ?_⟩
          have hp0 : IsSimplePath g S T p0 :=
            nxShortestPathBy_sound _ g S T p0 hnx
          have hcomp : q ∈ simplePaths g S T :=
            simplePaths_complete g hwf S T hst q ⟨hh, hl, hch, hnd⟩
          have hnx2 : minBySum
              (fun r => (consecPairs r).foldl
                (fun a uv => a + topoEdgeWeight g rlog S T
                  (w1 / (w1 + w2 + w3)) (w2 / (w1 + w2 + w3))
                  (w3 / (w1 + w2 + w3)) uv.1 uv.2) 0)
              (simplePaths g S T) = some p0 := hnx
          have hmin := minBySum_min _ _ p0 hnx2 q hcomp
          have hmin2 : pathTopoWeight g rlog S T (w1 / (w1 + w2 + w3))
              (w2 / (w1 + w2 + w3)) (w3 / (w1 + w2 + w3)) p0
              ≤ pathTopoWeight g rlog S T (w1 / (w1 + w2 + w3))
                (w2 / (w1 + w2 + w3)) (w3 / (w1 + w2 + w3)) q := hmin
          obtain ⟨midp, hpe, hSp, hTp⟩ :=
            simple_decomp S T hst p0 hp0.1 hp0.2.1 hp0.2.2.2
          obtain ⟨midq, hqe, hSq, hTq⟩ := simple_decomp S T hst q hh hl hnd
          have hansP : w1 / (w1 + w2 + w3) * topoTotalDelay g S T p0
              + w2 / (w1 + w2 + w3) * topoRelCost g rlog p0
              + w3 / (w1 + w2 + w3) * topoResCost g p0
              = pathTopoWeight g rlog S T (w1 / (w1 + w2 + w3))
                  (w2 / (w1 + w2 + w3)) (w3 / (w1 + w2 + w3)) p0
                + w2 / (w1 + w2 + w3)
                  * -rlog (max (g.nAttr S).node_reliability (engineEps K)) := by
            rw [hpe, topo_hop_general]
            simp
          have hansQ : w1 / (w1 + w2 + w3) * topoTotalDelay g S T q
              + w2 / (w1 + w2 + w3) * topoRelCost g rlog q
              + w3 / (w1 + w2 + w3) * topoResCost g q
              = pathTopoWeight g rlog S T (w1 / (w1 + w2 + w3))
                  (w2 / (w1 + w2 + w3)) (w3 / (w1 + w2 + w3)) q
                + w2 / (w1 + w2 + w3)
                  * -rlog (max (g.nAttr S).node_reliability (engineEps K)) := by
            rw [hqe, topo_hop_general]
            simp
          have hge := engine_ge_topo g rlog S T (w1 / (w1 + w2 + w3))
            (w2 / (w1 + w2 + w3)) (w3 / (w1 + w2 + w3))
            (div_nonneg hw3 (le_of_lt htotpos)) hbw hst q ⟨hh, hl, hch, hnd⟩
          have htcc : tc = w1 / (w1 + w2 + w3) * topoTotalDelay g S T p0
              + w2 / (w1 + w2 + w3) * topoRelCost g rlog p0
              + w3 / (w1 + w2 + w3) * topoResCost g p0 := by
            rw [← htc, topoTotalCost]
          have hpos : (0 : K) < 1 / 1000000 := by norm_num
          linarith
      · rw [if_neg hmem] at hres
        cases hres

theorem c1Graph_res : computePathWeighted c1Graph (fun _ => 0) 0 1 1 0 0
    = some ([0, 1], 2) := by
  norm_num [computePathWeighted, nxShortestPathBy, simplePaths,
    simplePathsAux, minBySum, neighborsOf, topoTotalCost, topoTotalDelay,
    topoRelCost, topoResCost, topoBW, topoBWFloor, engineEps, consecPairs,
    c1Graph, min_def, max_def]

/-- Concrete instance of `baseline_optimality` on the one-edge graph: the
only simple path `[0, 1]` scores at least the reported optimum `2` minus
the tolerance. -/
theorem baseline_optimality_witness :
    ∃ (m : PathMetrics ℚ) (c : ℚ),
      engineCompute c1Graph (fun _ => 0) [0, 1] none = .ok m
      ∧ weightedSum m ⟨1, 0, 0⟩ (defaultPenalty ℚ) = .ok c
      ∧ 2 - 1 / 1000000 ≤ c :=
  baseline_optimality c1Graph (fun _ => 0)
    ⟨by decide, by decide, fun u v => rfl⟩
    (fun u v _ => by norm_num [c1Graph])
    (fun n _ => by norm_num [c1Graph])
    (fun u v _ => by norm_num [c1Graph])
    (fun n _ => by norm_num [c1Graph])
    (fun u v _ => by norm_num [c1Graph])
    (fun u v _ => rfl)
    1 0 0 (by norm_num) (by norm_num) (by norm_num)
    0 1 [0, 1] 2 c1Graph_res [0, 1]
    ⟨rfl, rfl,
      by unfold EdgeChain; exact List.Chain.cons (by decide) List.Chain.nil,
      by decide⟩

end ClaimC1
